import Mathlib

/-!
Verification of the teleport-corridors travel-time pipeline.

The definitions below are a shallow embedding of `tools/build_matrix.py` and
`tools/build_derived.py`.  Stop, route and tract identifiers (Python `str`)
are modelled as naturals via an injective renaming; Python `dict`s are
modelled as association lists (first binding wins, as dict keys are unique
in the source); Python `float` arithmetic is modelled over `ℚ`; a Python
`KeyError` is modelled by an `Option` result.
-/

namespace TeleportCorridors

abbrev StopId := Nat
abbrev RouteId := Nat

/-- First-binding lookup in an association list, i.e. a Python `dict.get`. -/
def alistFind? {α β : Type} [DecidableEq α] : List (α × β) → α → Option β
  | [], _ => none
  | (k, v) :: rest, a => if k = a then some v else alistFind? rest a

/-- An outgoing edge `(dst, seconds, route)` of the stop graph
(`build_matrix.py`, `build_graph`). -/
structure Edge where
  dst : StopId
  sec : Int
  route : Option RouteId
deriving DecidableEq, Repr

/-- The stop graph: map from stop id to outgoing edge list. -/
abbrev Graph := List (StopId × List Edge)

/-- `graph.get(u, [])`. -/
def adj (g : Graph) (u : StopId) : List Edge := (alistFind? g u).getD []

/-- `u in graph`. -/
def hasKey (g : Graph) (u : StopId) : Bool := (alistFind? g u).isSome

/-- `graph[u].append(e)` on the first binding of `u`; no-op when `u` is
not a key (that case is paired with `appendEdge?` below). -/
def appendEdge : Graph → StopId → Edge → Graph
  | [], _, _ => []
  | (k, es) :: rest, u, e =>
    if k = u then (k, es ++ [e]) :: rest else (k, es) :: appendEdge rest u e

/-- `graph[u].append(e)`, where a missing key raises `KeyError` (`none`). -/
def appendEdge? (g : Graph) (u : StopId) (e : Edge) : Option Graph :=
  if hasKey g u then some (appendEdge g u e) else none

/-- `segment_weights : Dict[Tuple[str, str], int]` as an association list. -/
abbrev SegWeights := List ((StopId × StopId) × Int)

/-- `segment_routes : Dict[Tuple[str, str], Optional[str]]`. -/
abbrev SegRoutes := List ((StopId × StopId) × Option RouteId)

/-- `segment_routes.get((u, v))`. -/
def segRoutesGet (sr : SegRoutes) (e : StopId × StopId) : Option RouteId :=
  (alistFind? sr e).getD none

/-- The transit-edge loop of `build_graph`:
`if u in graph and v in graph and w > 0: graph[u].append((v, w, segment_routes.get((u, v))))`. -/
def addSegmentEdges (sr : SegRoutes) (sw : SegWeights) (g : Graph) : Graph :=
  sw.foldl
    (fun g p =>
      if hasKey g p.1.1 ∧ hasKey g p.1.2 ∧ 0 < p.2 then
        appendEdge g p.1.1 ⟨p.1.2, p.2, segRoutesGet sr (p.1.1, p.1.2)⟩
      else g)
    g

/-- Inner transfer loop: append `(v, ts, None)` from `u` to each target in order. -/
def addEdgesTo (ts : Int) (u : StopId) : List StopId → Graph → Option Graph
  | [], g => some g
  | v :: rest, g =>
    match appendEdge? g u ⟨v, ts, none⟩ with
    | none => none
    | some g2 => addEdgesTo ts u rest g2

/-- Double loop over the positions of `children`: the child at position `i`
gets an edge to the child at every position `j ≠ i` (`before` holds the
children already passed, in order). -/
def addComplexTransfers (ts : Int) : List StopId → List StopId → Graph → Option Graph
  | _, [], g => some g
  | before, u :: rest, g =>
    match addEdgesTo ts u (before ++ rest) g with
    | none => none
    | some g2 => addComplexTransfers ts (before ++ [u]) rest g2

/-- Loop over `parent_to_children.items()`, skipping complexes with fewer
than two member stops. -/
def addTransfers (ts : Int) : List (StopId × List StopId) → Graph → Option Graph
  | [], g => some g
  | (_, children) :: rest, g =>
    if children.length < 2 then addTransfers ts rest g
    else
      match addComplexTransfers ts [] children g with
      | none => none
      | some g2 => addTransfers ts rest g2

/-- `build_graph` from `build_matrix.py`: start from `{sid: [] for sid in stops}`,
add one transit edge per positively-weighted segment whose endpoints are
stops, then (only when `transfer_seconds > 0`) add the in-complex transfer
edges; `none` models the `KeyError` raised when a transfer source is not a
stop. -/
def build_graph (stops : List StopId) (ptc : List (StopId × List StopId))
    (segw : SegWeights) (segr : SegRoutes) (transfer_seconds : Int) : Option Graph :=
  let g0 : Graph := stops.map (fun sid => (sid, []))
  let g1 := addSegmentEdges segr segw g0
  if 0 < transfer_seconds then addTransfers transfer_seconds ptc g1 else some g1

/-- Every edge of every adjacency list has strictly positive travel seconds. -/
def EdgesPos (g : Graph) : Prop := ∀ p ∈ g, ∀ e ∈ p.2, 0 < e.sec

/-- Boolean form of non-negativity of all edge weights. -/
def edgesNonneg (g : Graph) : Bool := g.all (fun p => p.2.all (fun e => 0 ≤ e.sec))

theorem mem_appendEdge {g : Graph} {u : StopId} {e : Edge} :
    ∀ p ∈ appendEdge g u e, ∀ x ∈ p.2, (∃ q ∈ g, x ∈ q.2) ∨ x = e := by
  induction g with
  | nil => intro p hp; simp [appendEdge] at hp
  | cons hd tl ih =>
    intro p hp x hx
    simp only [appendEdge] at hp
    by_cases hk : hd.1 = u
    · rw [if_pos hk] at hp
      rcases List.mem_cons.mp hp with h | h
      · subst h
        rcases List.mem_append.mp hx with h | h
        · exact Or.inl ⟨hd, List.mem_cons_self _ _, h⟩
        · simp at h; exact Or.inr h
      · exact Or.inl ⟨p, List.mem_cons_of_mem _ h, hx⟩
    · rw [if_neg hk] at hp
      rcases List.mem_cons.mp hp with h | h
      · refine Or.inl ⟨p, ?_, hx⟩
        rw [h]
        exact List.mem_cons_self _ _
      · rcases ih p h x hx with h2 | h2
        · rcases h2 with ⟨q, hq, hxq⟩
          exact Or.inl ⟨q, List.mem_cons_of_mem _ hq, hxq⟩
        · exact Or.inr h2

theorem edgesPos_appendEdge {g : Graph} {u : StopId} {e : Edge}
    (hg : EdgesPos g) (he : 0 < e.sec) : EdgesPos (appendEdge g u e) := by
  intro p hp x hx
  rcases mem_appendEdge p hp x hx with ⟨q, hq, hxq⟩ | h
  · exact hg q hq x hxq
  · subst h; exact he

theorem edgesPos_addSegmentEdges {sr : SegRoutes} {sw : SegWeights} {g : Graph}
    (hg : EdgesPos g) : EdgesPos (addSegmentEdges sr sw g) := by
  induction sw generalizing g with
  | nil => exact hg
  | cons hd tl ih =>
    simp only [addSegmentEdges, List.foldl_cons]
    by_cases hc : hasKey g hd.1.1 ∧ hasKey g hd.1.2 ∧ 0 < hd.2
    · rw [if_pos hc]
      exact ih (edgesPos_appendEdge hg hc.2.2)
    · rw [if_neg hc]
      exact ih hg

theorem edgesPos_addEdgesTo {ts : Int} {u : StopId} (hts : 0 < ts) :
    ∀ {targets : List StopId} {g g2 : Graph}, EdgesPos g →
      addEdgesTo ts u targets g = some g2 → EdgesPos g2 := by
  intro targets
  induction targets with
  | nil => intro g g2 hg h; simp [addEdgesTo] at h; subst h; exact hg
  | cons v rest ih =>
    intro g g2 hg h
    simp only [addEdgesTo] at h
    rcases hh : appendEdge? g u ⟨v, ts, none⟩ with _ | g1
    · rw [hh] at h; exact absurd h (by simp)
    · rw [hh] at h
      have hg1 : EdgesPos g1 := by
        simp only [appendEdge?] at hh
        by_cases hk : hasKey g u
        · rw [if_pos hk] at hh
          cases hh
          exact edgesPos_appendEdge hg hts
        · rw [if_neg hk] at hh; exact absurd hh (by simp)
      exact ih hg1 h

theorem edgesPos_addComplexTransfers {ts : Int} (hts : 0 < ts) :
    ∀ {before children : List StopId} {g g2 : Graph}, EdgesPos g →
      addComplexTransfers ts before children g = some g2 → EdgesPos g2 := by
  intro before children
  induction children generalizing before with
  | nil => intro g g2 hg h; simp [addComplexTransfers] at h; subst h; exact hg
  | cons u rest ih =>
    intro g g2 hg h
    simp only [addComplexTransfers] at h
    rcases hh : addEdgesTo ts u (before ++ rest) g with _ | g1
    · rw [hh] at h; exact absurd h (by simp)
    · rw [hh] at h
      exact ih (edgesPos_addEdgesTo hts hg hh) h

theorem edgesPos_addTransfers {ts : Int} (hts : 0 < ts) :
    ∀ {ptc : List (StopId × List StopId)} {g g2 : Graph}, EdgesPos g →
      addTransfers ts ptc g = some g2 → EdgesPos g2 := by
  intro ptc
  induction ptc with
  | nil => intro g g2 hg h; simp [addTransfers] at h; subst h; exact hg
  | cons hd tl ih =>
    intro g g2 hg h
    simp only [addTransfers] at h
    by_cases hlen : hd.2.length < 2
    · rw [if_pos hlen] at h; exact ih hg h
    · rw [if_neg hlen] at h
      rcases hh : addComplexTransfers ts [] hd.2 g with _ | g1
      · rw [hh] at h; exact absurd h (by simp)
      · rw [hh] at h
        exact ih (edgesPos_addComplexTransfers hts hg hh) h

theorem edgesPos_init (stops : List StopId) :
    EdgesPos (stops.map (fun sid => (sid, ([] : List Edge)))) := by
  intro p hp x hx
  rcases List.mem_map.mp hp with ⟨sid, _, hs⟩
  subst hs
  simp at hx

theorem edgesPos_build_graph {stops : List StopId} {ptc : List (StopId × List StopId)}
    {segw : SegWeights} {segr : SegRoutes} {ts : Int} {g : Graph}
    (h : build_graph stops ptc segw segr ts = some g) : EdgesPos g := by
  simp only [build_graph] at h
  by_cases hts : 0 < ts
  · rw [if_pos hts] at h
    exact edgesPos_addTransfers hts
      (edgesPos_addSegmentEdges (edgesPos_init stops)) h
  · rw [if_neg hts] at h
    cases h
    exact edgesPos_addSegmentEdges (edgesPos_init stops)

theorem mem_adj_appendEdge {g : Graph} {u x : StopId} {e e' : Edge}
    (h : e' ∈ adj g x) : e' ∈ adj (appendEdge g u e) x := by
  induction g with
  | nil => simp [adj, alistFind?] at h
  | cons hd tl ih =>
    obtain ⟨k, es⟩ := hd
    simp only [appendEdge]
    by_cases hk : k = u
    · rw [if_pos hk]
      by_cases hx : k = x
      · simp only [adj, alistFind?, if_pos hx] at h ⊢
        exact List.mem_append.mpr (Or.inl h)
      · simp only [adj, alistFind?, if_neg hx] at h ⊢
        exact h
    · rw [if_neg hk]
      by_cases hx : k = x
      · simp only [adj, alistFind?, if_pos hx] at h ⊢
        exact h
      · simp only [adj, alistFind?, if_neg hx] at h ⊢
        exact ih h

theorem hasKey_appendEdge (g : Graph) (u x : StopId) (e : Edge) :
    hasKey (appendEdge g u e) x = hasKey g x := by
  induction g with
  | nil => simp [appendEdge]
  | cons hd tl ih =>
    obtain ⟨k, es⟩ := hd
    simp only [appendEdge]
    by_cases hk : k = u
    · rw [if_pos hk]
      by_cases hx : k = x
      · simp [hasKey, alistFind?, hx]
      · simp [hasKey, alistFind?, hx]
    · rw [if_neg hk]
      by_cases hx : k = x
      · simp [hasKey, alistFind?, hx]
      · simp only [hasKey, alistFind?, if_neg hx]
        exact ih

theorem adj_appendEdge_self {g : Graph} {u : StopId} {e : Edge}
    (hk : hasKey g u = true) : adj (appendEdge g u e) u = adj g u ++ [e] := by
  induction g with
  | nil => simp [hasKey, alistFind?] at hk
  | cons hd tl ih =>
    obtain ⟨k, es⟩ := hd
    simp only [appendEdge]
    by_cases hku : k = u
    · rw [if_pos hku]
      simp [adj, alistFind?, hku]
    · rw [if_neg hku]
      simp only [adj, alistFind?, if_neg hku]
      simp only [hasKey, alistFind?, if_neg hku] at hk
      exact ih hk

theorem mem_adj_addEdgesTo {ts : Int} {u : StopId} :
    ∀ {targets : List StopId} {g g2 : Graph} {x : StopId} {e' : Edge},
      addEdgesTo ts u targets g = some g2 → e' ∈ adj g x → e' ∈ adj g2 x := by
  intro targets
  induction targets with
  | nil => intro g g2 x e' h hm; simp [addEdgesTo] at h; subst h; exact hm
  | cons v rest ih =>
    intro g g2 x e' h hm
    simp only [addEdgesTo] at h
    rcases hh : appendEdge? g u ⟨v, ts, none⟩ with _ | g1
    · rw [hh] at h; exact absurd h (by simp)
    · rw [hh] at h
      simp only [appendEdge?] at hh
      by_cases hk : hasKey g u
      · rw [if_pos hk] at hh
        cases hh
        exact ih h (mem_adj_appendEdge hm)
      · rw [if_neg hk] at hh; exact absurd hh (by simp)

theorem addEdgesTo_adds {ts : Int} {u : StopId} :
    ∀ {targets : List StopId} {g g2 : Graph},
      addEdgesTo ts u targets g = some g2 →
      ∀ v ∈ targets, (⟨v, ts, none⟩ : Edge) ∈ adj g2 u := by
  intro targets
  induction targets with
  | nil => intro g g2 _ v hv; simp at hv
  | cons v0 rest ih =>
    intro g g2 h v hv
    simp only [addEdgesTo] at h
    rcases hh : appendEdge? g u ⟨v0, ts, none⟩ with _ | g1
    · rw [hh] at h; exact absurd h (by simp)
    · rw [hh] at h
      simp only [appendEdge?] at hh
      by_cases hk : hasKey g u
      · rw [if_pos hk] at hh
        cases hh
        rcases List.mem_cons.mp hv with h0 | hrest
        · subst h0
          have : (⟨v, ts, none⟩ : Edge) ∈ adj (appendEdge g u ⟨v, ts, none⟩) u := by
            rw [adj_appendEdge_self hk]
            simp
          exact mem_adj_addEdgesTo h this
        · exact ih h v hrest
      · rw [if_neg hk] at hh; exact absurd hh (by simp)

theorem mem_adj_addComplexTransfers {ts : Int} :
    ∀ {children before : List StopId} {g g2 : Graph} {x : StopId} {e' : Edge},
      addComplexTransfers ts before children g = some g2 →
      e' ∈ adj g x → e' ∈ adj g2 x := by
  intro children
  induction children with
  | nil => intro before g g2 x e' h hm; simp [addComplexTransfers] at h; subst h; exact hm
  | cons u rest ih =>
    intro before g g2 x e' h hm
    simp only [addComplexTransfers] at h
    rcases hh : addEdgesTo ts u (before ++ rest) g with _ | g1
    · rw [hh] at h; exact absurd h (by simp)
    · rw [hh] at h
      exact ih h (mem_adj_addEdgesTo hh hm)

theorem addComplexTransfers_adds {ts : Int} :
    ∀ {children before : List StopId} {g g2 : Graph},
      addComplexTransfers ts before children g = some g2 →
      ∀ u v, u ∈ children → (v ∈ before ∨ v ∈ children) → v ≠ u →
        (⟨v, ts, none⟩ : Edge) ∈ adj g2 u := by
  intro children
  induction children with
  | nil => intro before g g2 _ u v hu _ _; simp at hu
  | cons u0 rest ih =>
    intro before g g2 h u v hu hv hne
    simp only [addComplexTransfers] at h
    rcases hh : addEdgesTo ts u0 (before ++ rest) g with _ | g1
    · rw [hh] at h; exact absurd h (by simp)
    · rw [hh] at h
      rcases List.mem_cons.mp hu with h0 | hurest

      · subst h0
        have hvmem : v ∈ before ++ rest := by
          rcases hv with hb | hc
          · exact List.mem_append.mpr (Or.inl hb)
          · rcases List.mem_cons.mp hc with he | hr
            · exact absurd he hne
            · exact List.mem_append.mpr (Or.inr hr)
        exact mem_adj_addComplexTransfers h (addEdgesTo_adds hh v hvmem)
      · refine ih h u v hurest ?_ hne
        rcases hv with hb | hc
        · exact Or.inl (List.mem_append.mpr (Or.inl hb))
        · rcases List.mem_cons.mp hc with he | hr
          · subst he
            exact Or.inl (List.mem_append.mpr (Or.inr (by simp)))
          · exact Or.inr hr

theorem mem_adj_addTransfers {ts : Int} :
    ∀ {ptc : List (StopId × List StopId)} {g g2 : Graph} {x : StopId} {e' : Edge},
      addTransfers ts ptc g = some g2 → e' ∈ adj g x → e' ∈ adj g2 x := by
  intro ptc
  induction ptc with
  | nil => intro g g2 x e' h hm; simp [addTransfers] at h; subst h; exact hm
  | cons hd tl ih =>
    intro g g2 x e' h hm
    simp only [addTransfers] at h
    by_cases hlen : hd.2.length < 2
    · rw [if_pos hlen] at h; exact ih h hm
    · rw [if_neg hlen] at h
      rcases hh : addComplexTransfers ts [] hd.2 g with _ | g1
      · rw [hh] at h; exact absurd h (by simp)
      · rw [hh] at h
        exact ih h (mem_adj_addComplexTransfers hh hm)

theorem two_le_length_of_mem_ne {α : Type} {l : List α} {u v : α}
    (hu : u ∈ l) (hv : v ∈ l) (hne : u ≠ v) : 2 ≤ l.length := by
  cases l with
  | nil => simp at hu
  | cons a t =>
    cases t with
    | nil =>
      simp at hu hv
      exact absurd (hu.trans hv.symm) hne
    | cons b t2 => simp [List.length]

theorem addTransfers_adds {ts : Int} :
    ∀ {ptc : List (StopId × List StopId)} {g g2 : Graph} {p : StopId}
      {children : List StopId} {u v : StopId},
      addTransfers ts ptc g = some g2 → (p, children) ∈ ptc →
      u ∈ children → v ∈ children → v ≠ u →
      (⟨v, ts, none⟩ : Edge) ∈ adj g2 u := by
  intro ptc
  induction ptc with
  | nil => intro g g2 p children u v _ hmem; simp at hmem
  | cons hd tl ih =>
    intro g g2 p children u v h hmem hu hv hne
    simp only [addTransfers] at h
    rcases List.mem_cons.mp hmem with h0 | htl
    · have hch : hd.2 = children := by rw [← h0]
      have hlen : ¬ hd.2.length < 2 := by
        rw [hch]
        have := two_le_length_of_mem_ne hu hv (fun hx => hne hx.symm)
        omega
      rw [if_neg hlen] at h
      rcases hh : addComplexTransfers ts [] hd.2 g with _ | g1
      · rw [hh] at h; exact absurd h (by simp)
      · rw [hh] at h
        have : (⟨v, ts, none⟩ : Edge) ∈ adj g1 u := by
          refine addComplexTransfers_adds hh u v ?_ ?_ hne
          · rw [hch]; exact hu
          · rw [hch]; exact Or.inr hv
        exact mem_adj_addTransfers h this
    · by_cases hlen : hd.2.length < 2
      · rw [if_pos hlen] at h
        exact ih h htl hu hv hne
      · rw [if_neg hlen] at h
        rcases hh : addComplexTransfers ts [] hd.2 g with _ | g1
        · rw [hh] at h; exact absurd h (by simp)
        · rw [hh] at h
          exact ih h htl hu hv hne

theorem build_graph_transfer_edge {stops : List StopId}
    {ptc : List (StopId × List StopId)} {segw : SegWeights} {segr : SegRoutes}
    {ts : Int} {g : Graph} {p : StopId} {children : List StopId} {u v : StopId}
    (hts : 0 < ts) (h : build_graph stops ptc segw segr ts = some g)
    (hmem : (p, children) ∈ ptc) (hu : u ∈ children) (hv : v ∈ children)
    (hne : u ≠ v) : (⟨v, ts, none⟩ : Edge) ∈ adj g u := by
  simp only [build_graph] at h
  rw [if_pos hts] at h
  exact addTransfers_adds h hmem hu hv (fun hx => hne hx.symm)

theorem alistFind?_eq_some_mem {α β : Type} [DecidableEq α] {l : List (α × β)}
    {a : α} {b : β} (h : alistFind? l a = some b) : (a, b) ∈ l := by
  induction l with
  | nil => simp [alistFind?] at h
  | cons hd tl ih =>
    simp only [alistFind?] at h
    by_cases hk : hd.1 = a
    · rw [if_pos hk] at h
      cases h
      exact List.mem_cons.mpr (Or.inl (Prod.ext_iff.mpr ⟨hk.symm, rfl⟩))
    · rw [if_neg hk] at h
      exact List.mem_cons_of_mem _ (ih h)

theorem mem_adj_edgesPos {g : Graph} (hg : EdgesPos g) :
    ∀ u : StopId, ∀ e ∈ adj g u, 0 < e.sec := by
  intro u e he
  simp only [adj] at he
  rcases hf : alistFind? g u with _ | es
  · rw [hf] at he; simp at he
  · rw [hf] at he
    exact hg (u, es) (alistFind?_eq_some_mem hf) e he

/-- C10: for every input (arbitrary segment maps, parent-to-children map and
transfer-seconds), every edge `(dst, seconds, route)` appearing in a
StopGraph returned by `build_graph` has strictly positive seconds:
non-positive segment weights are dropped and transfer edges are only added
when the transfer-seconds value is positive. -/
theorem claim_C10_build_graph_edges_positive
    (stops : List StopId) (ptc : List (StopId × List StopId)) (segw : SegWeights)
    (segr : SegRoutes) (ts : Int) (g : Graph)
    (h : build_graph stops ptc segw segr ts = some g) :
    ∀ u : StopId, ∀ e ∈ adj g u, 0 < e.sec :=
  mem_adj_edgesPos (edgesPos_build_graph h)

/-- A two-stop station complex with one 3-second transit segment and
120-second transfers, as produced by `build_graph`. -/
def exGraph : Graph :=
  [(0, [⟨1, 3, none⟩, ⟨1, 120, none⟩]), (1, [⟨0, 120, none⟩])]

theorem claim_C10_build_graph_edges_positive_witness :
    build_graph [0, 1] [(5, [0, 1])] [((0, 1), 3)] [] 120 = some exGraph ∧
      ∀ u : StopId, ∀ e ∈ adj exGraph u, 0 < e.sec :=
  ⟨by decide,
    claim_C10_build_graph_edges_positive [0, 1] [(5, [0, 1])] [((0, 1), 3)] [] 120
      exGraph (by decide)⟩

/-- C6 as stated is false when the configured transfer-seconds is zero:
stops `0` and `1` are distinct and share parent `5`, `build_graph` succeeds,
yet no transfer edge from `0` to `1` is present. -/
theorem claim_C6_counterexample :
    (0 : StopId) ∈ [0, 1] ∧ (1 : StopId) ∈ [0, 1] ∧ (0 : StopId) ≠ 1 ∧
      ((5, [0, 1]) : StopId × List StopId) ∈ [(5, [0, 1])] ∧
      build_graph [0, 1] [(5, [0, 1])] [] [] 0 =
        some [(0, []), (1, [])] ∧
      (⟨1, 0, none⟩ : Edge) ∉ adj [(0, ([] : List Edge)), (1, [])] 0 ∧
      adj [(0, ([] : List Edge)), (1, [])] 0 = [] := by
  refine ⟨by decide, by decide, by decide, by decide, by decide, by decide, by decide⟩

/-- C6 (amended): provided the configured transfer-seconds is positive, for
every ordered pair of distinct stops `(u, v)` sharing a parent station the
StopGraph produced by `build_graph` contains a transfer edge from `u` to `v`
with weight equal to the transfer-seconds and no route — even when no
transit edges touch the complex. -/
theorem claim_C6_transfer_edges {stops : List StopId}
    {ptc : List (StopId × List StopId)} {segw : SegWeights} {segr : SegRoutes}
    {ts : Int} {g : Graph} {p : StopId} {children : List StopId} {u v : StopId}
    (hts : 0 < ts) (h : build_graph stops ptc segw segr ts = some g)
    (hmem : (p, children) ∈ ptc) (hu : u ∈ children) (hv : v ∈ children)
    (hne : u ≠ v) : (⟨v, ts, none⟩ : Edge) ∈ adj g u :=
  build_graph_transfer_edge hts h hmem hu hv hne

theorem claim_C6_transfer_edges_witness :
    (0 : Int) < 120 ∧ (⟨1, 120, none⟩ : Edge) ∈ adj exGraph 0 :=
  ⟨by decide,
    @claim_C6_transfer_edges [0, 1] [(5, [0, 1])] [((0, 1), 3)] [] 120 exGraph
      5 [0, 1] 0 1
      (by decide) (by decide) (by decide) (by decide) (by decide) (by decide)⟩

/-- Result of `dijkstra_first_route`: the `dist` and `first_route` dicts,
modelled as partial functions (`none` = key absent; for `first_route` the
inner `Option` is the stored Python `None`-or-route value). -/
structure DijkstraResult where
  dist : StopId → Option Int
  fr : StopId → Option (Option RouteId)

/-- Lexicographic order on `(distance, node)` heap entries, as CPython's
`heapq` compares tuples. -/
def pairLe (a b : Int × StopId) : Bool :=
  decide (a.1 < b.1 ∨ (a.1 = b.1 ∧ a.2 ≤ b.2))

/-- `heapq.heappop`: remove one least entry; `none` on the empty heap.  The
list models the heap as a multiset (push order is irrelevant because the
pop always selects a least element). -/
def popMin : List (Int × StopId) → Option ((Int × StopId) × List (Int × StopId))
  | [] => none
  | x :: xs =>
    match popMin xs with
    | none => some (x, [])
    | some (m, rest) => if pairLe x m then some (x, xs) else some (m, x :: rest)

/-- Pointwise update of a dict modelled as a function. -/
def updateFn {β : Type} (f : StopId → β) (v : StopId) (b : β) : StopId → β :=
  fun x => if x = v then b else f x

/-- Loop state: `(heap, dist, first_route)`. -/
abbrev DState :=
  List (Int × StopId) × (StopId → Option Int) × (StopId → Option (Option RouteId))

/-- One relaxation of edge `e = (v, w, rid)` out of `u`, popped at distance
`d`, from `dijkstra_first_route`: on improvement set `dist[v] = d + w`, set
`first_route[v]` to `rid` when `u == start` and to `first_route.get(u)`
otherwise, and push `(d + w, v)`. -/
def relaxEdge (s u : StopId) (d : Int) (st : DState) (e : Edge) : DState :=
  let heap := st.1
  let dist := st.2.1
  let fr := st.2.2
  let nd := d + e.sec
  let improve : Bool :=
    match dist e.dst with
    | none => true
    | some old => decide (nd < old)
  if improve then
    ((nd, e.dst) :: heap,
      updateFn dist e.dst (some nd),
      updateFn fr e.dst (some (if u = s then e.route else (fr u).getD none)))
  else st

/-- Relax all outgoing edges of `u` in order. -/
def relaxAll (s u : StopId) (d : Int) (es : List Edge) (st : DState) : DState :=
  es.foldl (relaxEdge s u d) st

/-- The `while heap:` loop of `dijkstra_first_route`, with explicit fuel:
`none` models a run that does not finish within `fuel` iterations (the
Python loop simply keeps running; every theorem below is about runs that
do finish, and witnesses supply sufficient fuel). -/
def dijkstraLoop (g : Graph) (s : StopId) :
    Nat → List (Int × StopId) → (StopId → Option Int) →
      (StopId → Option (Option RouteId)) → Option DijkstraResult
  | 0, heap, dist, fr => if heap.isEmpty then some ⟨dist, fr⟩ else none
  | fuel + 1, heap, dist, fr =>
    match popMin heap with
    | none => some ⟨dist, fr⟩
    | some ((d, u), rest) =>
      if dist u = some d then
        let st := relaxAll s u d (adj g u) (rest, dist, fr)
        dijkstraLoop g s fuel st.1 st.2.1 st.2.2
      else dijkstraLoop g s fuel rest dist fr

/-- `dijkstra_first_route(graph, start)`: `dist = {start: 0}`,
`first_route = {start: None}`, `heap = [(0, start)]`. -/
def dijkstra_first_route (g : Graph) (s : StopId) (fuel : Nat) :
    Option DijkstraResult :=
  dijkstraLoop g s fuel [(0, s)]
    (updateFn (fun _ => none) s (some 0))
    (updateFn (fun _ => none) s (some none))

/-- `dist.get(v)` on the result of a finished run (`none` when the run did
not finish). -/
def distOf (r : Option DijkstraResult) (v : StopId) : Option Int :=
  match r with
  | some r => r.dist v
  | none => none

/-- `first_route.get(v)` on the result of a finished run. -/
def frOf (r : Option DijkstraResult) (v : StopId) : Option (Option RouteId) :=
  match r with
  | some r => r.fr v
  | none => none

/-- Edge reachability in the stop graph. -/
inductive Reachable (g : Graph) (s : StopId) : StopId → Prop
  | refl : Reachable g s s
  | step {u : StopId} {e : Edge} : Reachable g s u → e ∈ adj g u →
      Reachable g s e.dst

/-- `WalkLen g s v L`: some walk from `s` to `v` has total weight `L`. -/
inductive WalkLen (g : Graph) (s : StopId) : StopId → Int → Prop
  | refl : WalkLen g s s 0
  | step {u : StopId} {L : Int} {e : Edge} : WalkLen g s u L → e ∈ adj g u →
      WalkLen g s e.dst (L + e.sec)

/-- `int((sec + 30) // 60)`: Python `//` is floor division. -/
def secToMinutes (sec : Int) : Int := (sec + 30).fdiv 60

/-- One entry of the minutes matrix: `None` when `dist.get(dest)` is absent,
else the rounded minutes (`main`, matrix assembly loop). -/
def minutesEntry (r : Option DijkstraResult) (dest : StopId) : Option Int :=
  (distOf r dest).map secToMinutes

/-- One row of the minutes matrix over the representative stops. -/
def minutesRow (r : Option DijkstraResult) (reps : List StopId) : List (Option Int) :=
  reps.map (minutesEntry r)

/-- One entry of the `first_route` matrix: `None` when the destination is
unreachable or its stored first route is `None`, else the route-table index
(`route_index.get(rid)`). -/
def firstRouteEntry (r : Option DijkstraResult) (routeIndex : List (RouteId × Nat))
    (dest : StopId) : Option Nat :=
  match distOf r dest with
  | none => none
  | some _ =>
    match (frOf r dest).getD none with
    | none => none
    | some rid => alistFind? routeIndex rid

/-- One iteration of the `harmonic_centrality_from_minutes_row` loop: skip
absent and non-positive entries, else add `1/m`. -/
def harmonicStep (score : ℚ) (m : Option Int) : ℚ :=
  match m with
  | none => score
  | some m => if m ≤ 0 then score else score + 1 / (m : ℚ)

/-- `harmonic_centrality_from_minutes_row`: sum of `1/m` over the entries
that are present and positive (Python float arithmetic modelled over `ℚ`). -/
def harmonic_centrality_from_minutes_row (row : List (Option Int)) : ℚ :=
  row.foldl harmonicStep 0

theorem popMin_eq_none {l : List (Int × StopId)} : popMin l = none ↔ l = [] := by
  cases l with
  | nil => simp [popMin]
  | cons x xs =>
    simp only [popMin]
    rcases h : popMin xs with _ | p
    · simp
    · obtain ⟨m, rest⟩ := p
      by_cases hle : pairLe x m
      · simp [hle]
      · simp [hle]

theorem popMin_perm {l rest : List (Int × StopId)} {m : Int × StopId}
    (h : popMin l = some (m, rest)) : List.Perm l (m :: rest) := by
  induction l generalizing m rest with
  | nil => simp [popMin] at h
  | cons x xs ih =>
    simp only [popMin] at h
    rcases hx : popMin xs with _ | p
    · rw [hx] at h
      have hxs : xs = [] := popMin_eq_none.mp hx
      cases h
      subst hxs
      exact List.Perm.refl _
    · obtain ⟨m', rest'⟩ := p
      rw [hx] at h
      dsimp only at h
      by_cases hle : pairLe x m'
      · rw [if_pos hle] at h
        cases h
        exact List.Perm.refl _
      · rw [if_neg hle] at h
        cases h
        exact (List.Perm.cons x (ih hx)).trans (List.Perm.swap _ _ _)

/-- All outgoing edges of every node have non-negative weight. -/
def WNonneg (g : Graph) : Prop := ∀ u : StopId, ∀ e ∈ adj g u, 0 ≤ e.sec

theorem wNonneg_of_edgesPos {g : Graph} (h : EdgesPos g) : WNonneg g :=
  fun u e he => le_of_lt (mem_adj_edgesPos h u e he)

/-- `x` is fully relaxed under `dist`: every outgoing edge reaches a
recorded key whose value is at most `dist x + w`. -/
def RelaxedAt (g : Graph) (dist : StopId → Option Int) (x : StopId) (dx : Int) : Prop :=
  ∀ e ∈ adj g x, ∃ dv, dist e.dst = some dv ∧ dv ≤ dx + e.sec

/-- Invariant of the `while heap:` loop between iterations. -/
structure LoopInv (g : Graph) (s : StopId) (heap : List (Int × StopId))
    (dist : StopId → Option Int) (fr : StopId → Option (Option RouteId)) : Prop where
  start_dist : dist s = some 0
  start_fr : fr s = some none
  nonneg : ∀ v dv, dist v = some dv → 0 ≤ dv
  heap_nonneg : ∀ p ∈ heap, 0 ≤ p.1
  walk : ∀ v dv, dist v = some dv → WalkLen g s v dv
  pending : ∀ x dx, dist x = some dx → (dx, x) ∈ heap ∨ RelaxedAt g dist x dx

/-- Invariant during the relaxation of the edges of the popped node `u`
(whose own heap entry has been removed but whose edges are in progress). -/
structure MidInv (g : Graph) (s u : StopId) (d : Int) (st : DState) : Prop where
  start_dist : st.2.1 s = some 0
  start_fr : st.2.2 s = some none
  nonneg : ∀ v dv, st.2.1 v = some dv → 0 ≤ dv
  heap_nonneg : ∀ p ∈ st.1, 0 ≤ p.1
  walk : ∀ v dv, st.2.1 v = some dv → WalkLen g s v dv
  at_u : st.2.1 u = some d
  pending : ∀ x dx, st.2.1 x = some dx →
    x = u ∨ (dx, x) ∈ st.1 ∨ RelaxedAt g st.2.1 x dx

theorem relaxEdge_spec {g : Graph} {s u : StopId} {d : Int} {st : DState} {e : Edge}
    (hd : 0 ≤ d) (he : e ∈ adj g u) (hsec : 0 ≤ e.sec) (hinv : MidInv g s u d st) :
    MidInv g s u d (relaxEdge s u d st e) ∧
      (∃ dv, (relaxEdge s u d st e).2.1 e.dst = some dv ∧ dv ≤ d + e.sec) ∧
      (∀ x dx, st.2.1 x = some dx →
        ∃ dx', (relaxEdge s u d st e).2.1 x = some dx' ∧ dx' ≤ dx) ∧
      (∀ p ∈ st.1, p ∈ (relaxEdge s u d st e).1) := by
  obtain ⟨heap, dist, fr⟩ := st
  obtain ⟨hsd, hsf, hnn, hhn, hwk, hau, hpd⟩ := hinv
  dsimp only at hsd hsf hnn hhn hwk hau hpd
  rcases hv : dist e.dst with _ | old
  · -- `dist.get(v)` is absent: always improve.
    have hst : relaxEdge s u d (heap, dist, fr) e =
        ((d + e.sec, e.dst) :: heap,
          updateFn dist e.dst (some (d + e.sec)),
          updateFn fr e.dst (some (if u = s then e.route else (fr u).getD none))) := by
      simp [relaxEdge, hv]
    have hvs : e.dst ≠ s := by
      intro hx
      rw [hx, hsd] at hv
      exact Option.noConfusion hv
    have hvu : e.dst ≠ u := by
      intro hx
      rw [hx, hau] at hv
      exact Option.noConfusion hv
    rw [hst]
    refine ⟨⟨?_, ?_, ?_, ?_, ?_, ?_, ?_⟩, ?_, ?_, ?_⟩
    · simp only [updateFn, if_neg (Ne.symm hvs)]
      exact hsd
    · simp only [updateFn, if_neg (Ne.symm hvs)]
      exact hsf
    · intro v dv hdv
      simp only [updateFn] at hdv
      by_cases hx : v = e.dst
      · rw [if_pos hx] at hdv
        cases hdv
        exact add_nonneg hd hsec
      · rw [if_neg hx] at hdv
        exact hnn v dv hdv
    · intro p hp
      rcases List.mem_cons.mp hp with h0 | h0
      · subst h0
        exact add_nonneg hd hsec
      · exact hhn p h0
    · intro v dv hdv
      simp only [updateFn] at hdv
      by_cases hx : v = e.dst
      · rw [if_pos hx] at hdv
        cases hdv
        subst hx
        exact WalkLen.step (hwk u d hau) he
      · rw [if_neg hx] at hdv
        exact hwk v dv hdv
    · simp only [updateFn, if_neg (Ne.symm hvu)]
      exact hau
    · intro x dx hdx
      simp only [updateFn] at hdx
      by_cases hx : x = e.dst
      · rw [if_pos hx] at hdx
        cases hdx
        subst hx
        exact Or.inr (Or.inl (List.mem_cons_self _ _))
      · rw [if_neg hx] at hdx
        rcases hpd x dx hdx with h0 | h0 | h0
        · exact Or.inl h0
        · exact Or.inr (Or.inl (List.mem_cons_of_mem _ h0))
        · refine Or.inr (Or.inr ?_)
          intro e' he'
          rcases h0 e' he' with ⟨dw, hdw, hle⟩
          by_cases hx2 : e'.dst = e.dst
          · rw [hx2, hv] at hdw
            exact Option.noConfusion hdw
          · exact ⟨dw, by simp only [updateFn, if_neg hx2]; exact hdw, hle⟩
    · refine ⟨d + e.sec, ?_, le_refl _⟩
      simp [updateFn]
    · intro x dx hdx
      dsimp only at hdx
      by_cases hx : x = e.dst
      · rw [hx, hv] at hdx
        exact Option.noConfusion hdx
      · exact ⟨dx, by simp only [updateFn, if_neg hx]; exact hdx, le_refl _⟩
    · intro p hp
      exact List.mem_cons_of_mem _ hp
  · by_cases himp : d + e.sec < old
    · -- strict improvement over the recorded value
      have hst : relaxEdge s u d (heap, dist, fr) e =
          ((d + e.sec, e.dst) :: heap,
            updateFn dist e.dst (some (d + e.sec)),
            updateFn fr e.dst (some (if u = s then e.route else (fr u).getD none))) := by
        simp [relaxEdge, hv, himp]
      have hvs : e.dst ≠ s := by
        intro hx
        rw [hx, hsd] at hv
        cases hv
        have : (0 : Int) ≤ d + e.sec := add_nonneg hd hsec
        omega
      have hvu : e.dst ≠ u := by
        intro hx
        rw [hx, hau] at hv
        cases hv
        omega
      rw [hst]
      refine ⟨⟨?_, ?_, ?_, ?_, ?_, ?_, ?_⟩, ?_, ?_, ?_⟩
      · simp only [updateFn, if_neg (Ne.symm hvs)]
        exact hsd
      · simp only [updateFn, if_neg (Ne.symm hvs)]
        exact hsf
      · intro v dv hdv
        simp only [updateFn] at hdv
        by_cases hx : v = e.dst
        · rw [if_pos hx] at hdv
          cases hdv
          exact add_nonneg hd hsec
        · rw [if_neg hx] at hdv
          exact hnn v dv hdv
      · intro p hp
        rcases List.mem_cons.mp hp with h0 | h0
        · subst h0
          exact add_nonneg hd hsec
        · exact hhn p h0
      · intro v dv hdv
        simp only [updateFn] at hdv
        by_cases hx : v = e.dst
        · rw [if_pos hx] at hdv
          cases hdv
          subst hx
          exact WalkLen.step (hwk u d hau) he
        · rw [if_neg hx] at hdv
          exact hwk v dv hdv
      · simp only [updateFn, if_neg (Ne.symm hvu)]
        exact hau
      · intro x dx hdx
        simp only [updateFn] at hdx
        by_cases hx : x = e.dst
        · rw [if_pos hx] at hdx
          cases hdx
          subst hx
          exact Or.inr (Or.inl (List.mem_cons_self _ _))
        · rw [if_neg hx] at hdx
          rcases hpd x dx hdx with h0 | h0 | h0
          · exact Or.inl h0
          · exact Or.inr (Or.inl (List.mem_cons_of_mem _ h0))
          · refine Or.inr (Or.inr ?_)
            intro e' he'
            rcases h0 e' he' with ⟨dw, hdw, hle⟩
            by_cases hx2 : e'.dst = e.dst
            · rw [hx2, hv] at hdw
              cases hdw
              refine ⟨d + e.sec, ?_, ?_⟩
              · simp [updateFn, hx2]
              · omega
            · exact ⟨dw, by simp only [updateFn, if_neg hx2]; exact hdw, hle⟩
      · refine ⟨d + e.sec, ?_, le_refl _⟩
        simp [updateFn]
      · intro x dx hdx
        dsimp only at hdx
        by_cases hx : x = e.dst
        · subst hx
          rw [hv] at hdx
          cases hdx
          refine ⟨d + e.sec, ?_, le_of_lt himp⟩
          simp [updateFn]
        · exact ⟨dx, by simp only [updateFn, if_neg hx]; exact hdx, le_refl _⟩
      · intro p hp
        exact List.mem_cons_of_mem _ hp
    · -- no improvement: state unchanged
      have hst : relaxEdge s u d (heap, dist, fr) e = (heap, dist, fr) := by
        simp [relaxEdge, hv, himp]
      rw [hst]
      refine ⟨⟨hsd, hsf, hnn, hhn, hwk, hau, hpd⟩, ⟨old, hv, by omega⟩, ?_, fun p hp => hp⟩
      intro x dx hdx
      exact ⟨dx, hdx, le_refl _⟩

theorem relaxAll_spec {g : Graph} {s u : StopId} {d : Int} (hd : 0 ≤ d)
    (hw : ∀ e ∈ adj g u, 0 ≤ e.sec) :
    ∀ (es : List Edge) (st : DState), (∀ e ∈ es, e ∈ adj g u) →
      MidInv g s u d st →
      MidInv g s u d (relaxAll s u d es st) ∧
        (∀ e ∈ es, ∃ dv, (relaxAll s u d es st).2.1 e.dst = some dv ∧ dv ≤ d + e.sec) ∧
        (∀ x dx, st.2.1 x = some dx →
          ∃ dx', (relaxAll s u d es st).2.1 x = some dx' ∧ dx' ≤ dx) ∧
        (∀ p ∈ st.1, p ∈ (relaxAll s u d es st).1) := by
  intro es
  induction es with
  | nil =>
    intro st _ hinv
    exact ⟨hinv, by simp, fun x dx h => ⟨dx, h, le_refl _⟩, fun p hp => hp⟩
  | cons e rest ih =>
    intro st hes hinv
    have hee : e ∈ adj g u := hes e (List.mem_cons_self _ _)
    obtain ⟨hinv1, hdone1, hmono1, hheap1⟩ := relaxEdge_spec hd hee (hw e hee) hinv
    obtain ⟨hinv2, hdone2, hmono2, hheap2⟩ :=
      ih (relaxEdge s u d st e) (fun e' he' => hes e' (List.mem_cons_of_mem _ he')) hinv1
    have hfold : relaxAll s u d (e :: rest) st =
        relaxAll s u d rest (relaxEdge s u d st e) := rfl
    rw [hfold]
    refine ⟨hinv2, ?_, ?_, ?_⟩
    · intro e' he'
      rcases List.mem_cons.mp he' with h0 | h0
      · subst h0
        rcases hdone1 with ⟨dv, hdv, hle⟩
        rcases hmono2 e'.dst dv hdv with ⟨dv', hdv', hle'⟩
        exact ⟨dv', hdv', le_trans hle' hle⟩
      · exact hdone2 e' h0
    · intro x dx hdx
      rcases hmono1 x dx hdx with ⟨dx1, hdx1, hle1⟩
      rcases hmono2 x dx1 hdx1 with ⟨dx2, hdx2, hle2⟩
      exact ⟨dx2, hdx2, le_trans hle2 hle1⟩
    · intro p hp
      exact hheap2 p (hheap1 p hp)

/-- Facts about the final `dist`/`first_route` maps of a finished run. -/
structure DFinal (g : Graph) (s : StopId) (res : DijkstraResult) : Prop where
  start_dist : res.dist s = some 0
  start_fr : res.fr s = some none
  nonneg : ∀ v dv, res.dist v = some dv → 0 ≤ dv
  walk : ∀ v dv, res.dist v = some dv → WalkLen g s v dv
  relaxed : ∀ x dx, res.dist x = some dx → RelaxedAt g res.dist x dx

theorem dijkstraLoop_final {g : Graph} {s : StopId} (hw : WNonneg g) :
    ∀ (fuel : Nat) (heap : List (Int × StopId)) (dist : StopId → Option Int)
      (fr : StopId → Option (Option RouteId)) (res : DijkstraResult),
      LoopInv g s heap dist fr →
      dijkstraLoop g s fuel heap dist fr = some res → DFinal g s res := by
  intro fuel
  induction fuel with
  | zero =>
    intro heap dist fr res hinv h
    cases heap with
    | cons p t => simp [dijkstraLoop, List.isEmpty] at h
    | nil =>
      simp only [dijkstraLoop, List.isEmpty, if_pos] at h
      cases h
      refine ⟨hinv.start_dist, hinv.start_fr, hinv.nonneg, hinv.walk, ?_⟩
      intro x dx hdx
      rcases hinv.pending x dx hdx with h0 | h0
      · simp at h0
      · exact h0
  | succ fuel ih =>
    intro heap dist fr res hinv h
    simp only [dijkstraLoop] at h
    rcases hp : popMin heap with _ | pr
    · rw [hp] at h
      dsimp only at h
      cases h
      have hempty : heap = [] := popMin_eq_none.mp hp
      refine ⟨hinv.start_dist, hinv.start_fr, hinv.nonneg, hinv.walk, ?_⟩
      intro x dx hdx
      rcases hinv.pending x dx hdx with h0 | h0
      · rw [hempty] at h0; simp at h0
      · exact h0
    · obtain ⟨⟨d, u⟩, rest⟩ := pr
      rw [hp] at h
      dsimp only at h
      have hperm := popMin_perm hp
      by_cases hcond : dist u = some d
      · rw [if_pos hcond] at h
        have hmid : MidInv g s u d (rest, dist, fr) := by
          refine ⟨hinv.start_dist, hinv.start_fr, hinv.nonneg, ?_, hinv.walk, hcond, ?_⟩
          · intro p hpmem
            exact hinv.heap_nonneg p (hperm.mem_iff.mpr (List.mem_cons_of_mem _ hpmem))
          · intro x dx hdx
            rcases hinv.pending x dx hdx with h0 | h0
            · rcases List.mem_cons.mp (hperm.mem_iff.mp h0) with h1 | h1
              · exact Or.inl (congrArg Prod.snd h1)
              · exact Or.inr (Or.inl h1)
            · exact Or.inr (Or.inr h0)
        have hd0 : 0 ≤ d := hinv.nonneg u d hcond
        obtain ⟨hinv2, hdone, hmono, hheap⟩ :=
          relaxAll_spec hd0 (hw u) (adj g u) (rest, dist, fr) (fun e he => he) hmid
        have hloop :
            LoopInv g s (relaxAll s u d (adj g u) (rest, dist, fr)).1
              (relaxAll s u d (adj g u) (rest, dist, fr)).2.1
              (relaxAll s u d (adj g u) (rest, dist, fr)).2.2 := by
          refine ⟨hinv2.start_dist, hinv2.start_fr, hinv2.nonneg, hinv2.heap_nonneg,
            hinv2.walk, ?_⟩
          intro x dx hdx
          rcases hinv2.pending x dx hdx with h0 | h0 | h0
          · subst h0
            have hxd : dx = d := by
              rw [hinv2.at_u] at hdx
              cases hdx
              rfl
            subst hxd
            exact Or.inr (fun e he => hdone e he)
          · exact Or.inl h0
          · exact Or.inr h0
        exact ih _ _ _ res hloop h
      · rw [if_neg hcond] at h
        have hloop : LoopInv g s rest dist fr := by
          refine ⟨hinv.start_dist, hinv.start_fr, hinv.nonneg, ?_, hinv.walk, ?_⟩
          · intro p hpm
            exact hinv.heap_nonneg p (hperm.mem_iff.mpr (List.mem_cons_of_mem _ hpm))
          · intro x dx hdx
            rcases hinv.pending x dx hdx with h0 | h0
            · rcases List.mem_cons.mp (hperm.mem_iff.mp h0) with h1 | h1
              · exfalso
                have hxu : x = u := congrArg Prod.snd h1
                have hdd : dx = d := congrArg Prod.fst h1
                rw [hxu, hdd] at hdx
                exact hcond hdx
              · exact Or.inl h1
            · exact Or.inr h0
        exact ih rest dist fr res hloop h

theorem dijkstra_first_route_final {g : Graph} {s : StopId} {fuel : Nat}
    {res : DijkstraResult} (hw : WNonneg g)
    (h : dijkstra_first_route g s fuel = some res) : DFinal g s res := by
  refine dijkstraLoop_final hw fuel _ _ _ res ⟨?_, ?_, ?_, ?_, ?_, ?_⟩ h
  · simp [updateFn]
  · simp [updateFn]
  · intro v dv hdv
    simp only [updateFn] at hdv
    by_cases hx : v = s
    · rw [if_pos hx] at hdv
      cases hdv
      exact le_refl 0
    · rw [if_neg hx] at hdv
      exact Option.noConfusion hdv
  · intro p hp
    rcases List.mem_cons.mp hp with h0 | h0
    · subst h0
      exact le_refl 0
    · simp at h0
  · intro v dv hdv
    simp only [updateFn] at hdv
    by_cases hx : v = s
    · rw [if_pos hx] at hdv
      cases hdv
      subst hx
      exact WalkLen.refl
    · rw [if_neg hx] at hdv
      exact Option.noConfusion hdv
  · intro x dx hdx
    simp only [updateFn] at hdx
    by_cases hx : x = s
    · rw [if_pos hx] at hdx
      cases hdx
      subst hx
      exact Or.inl (by simp)
    · rw [if_neg hx] at hdx
      exact Option.noConfusion hdx

theorem walkLen_reachable {g : Graph} {s v : StopId} {L : Int}
    (h : WalkLen g s v L) : Reachable g s v := by
  induction h with
  | refl => exact Reachable.refl
  | step _ he ih => exact Reachable.step ih he

theorem final_keys_iff {g : Graph} {s : StopId} {res : DijkstraResult}
    (hf : DFinal g s res) : ∀ v, res.dist v ≠ none ↔ Reachable g s v := by
  intro v
  constructor
  · intro h
    rcases hd : res.dist v with _ | dv
    · exact absurd hd h
    · exact walkLen_reachable (hf.walk v dv hd)
  · intro h
    induction h with
    | refl =>
      rw [hf.start_dist]
      simp
    | @step u e hr he ih =>
      rcases hd : res.dist u with _ | du
      · rw [hd] at ih
        exact absurd rfl ih
      · rcases hf.relaxed u du hd e he with ⟨dv, hdv, _⟩
        rw [hdv]
        simp

theorem final_dist_le {g : Graph} {s : StopId} {res : DijkstraResult}
    (hf : DFinal g s res) :
    ∀ {v : StopId} {L : Int}, WalkLen g s v L →
      ∃ dv, res.dist v = some dv ∧ dv ≤ L := by
  intro v L h
  induction h with
  | refl => exact ⟨0, hf.start_dist, le_refl 0⟩
  | step _ he ih =>
    rcases ih with ⟨du, hdu, hle⟩
    rcases hf.relaxed _ du hdu _ he with ⟨dv, hdv, hle2⟩
    exact ⟨dv, hdv, by omega⟩

theorem minutesEntry_eq_none_iff {res : DijkstraResult} {dest : StopId} :
    minutesEntry (some res) dest = none ↔ res.dist dest = none := by
  simp [minutesEntry, distOf]

/-- C1: for a per-window StopGraph produced by `build_graph` and any finished
run of `dijkstra_first_route` from the representative stop of ordinal `i`,
the matrix entry `minutes[i][j]` is `None` iff ordinal `j`'s representative
stop is unreachable from ordinal `i`'s; equivalently, the Dijkstra result map
contains exactly the reachable stops. -/
theorem claim_C1_minutes_null_iff_unreachable
    (stops : List StopId) (ptc : List (StopId × List StopId)) (segw : SegWeights)
    (segr : SegRoutes) (ts : Int) (g : Graph) (reps : List StopId) (fuel : Nat)
    (i j : Nat) (hi : i < reps.length) (hj : j < reps.length)
    (hb : build_graph stops ptc segw segr ts = some g)
    (hrun : (dijkstra_first_route g (reps.get ⟨i, hi⟩) fuel).isSome = true) :
    (minutesEntry (dijkstra_first_route g (reps.get ⟨i, hi⟩) fuel) (reps.get ⟨j, hj⟩) = none ↔
        ¬ Reachable g (reps.get ⟨i, hi⟩) (reps.get ⟨j, hj⟩)) ∧
      (∀ v, distOf (dijkstra_first_route g (reps.get ⟨i, hi⟩) fuel) v ≠ none ↔
        Reachable g (reps.get ⟨i, hi⟩) v) := by
  obtain ⟨res, hres⟩ := Option.isSome_iff_exists.mp hrun
  have hw : WNonneg g := wNonneg_of_edgesPos (edgesPos_build_graph hb)
  have hf := dijkstra_first_route_final hw hres
  have hkeys := final_keys_iff hf
  rw [hres]
  constructor
  · rw [minutesEntry_eq_none_iff]
    rw [← hkeys (reps.get ⟨j, hj⟩)]
    constructor
    · intro h hne
      exact hne h
    · intro h
      exact not_not.mp h
  · intro v
    simpa [distOf] using hkeys v

/-- C2: for a per-window StopGraph produced by `build_graph` and any finished
run from the representative stop of ordinal `i`, the diagonal entries satisfy
`minutes[i][i] == 0` and `first_route[i][i]` is `None`. -/
theorem claim_C2_diagonal
    (stops : List StopId) (ptc : List (StopId × List StopId)) (segw : SegWeights)
    (segr : SegRoutes) (ts : Int) (g : Graph) (reps : List StopId) (fuel : Nat)
    (routeIndex : List (RouteId × Nat)) (i : Nat) (hi : i < reps.length)
    (hb : build_graph stops ptc segw segr ts = some g)
    (hrun : (dijkstra_first_route g (reps.get ⟨i, hi⟩) fuel).isSome = true) :
    minutesEntry (dijkstra_first_route g (reps.get ⟨i, hi⟩) fuel) (reps.get ⟨i, hi⟩) =
        some 0 ∧
      firstRouteEntry (dijkstra_first_route g (reps.get ⟨i, hi⟩) fuel) routeIndex
        (reps.get ⟨i, hi⟩) = none := by
  obtain ⟨res, hres⟩ := Option.isSome_iff_exists.mp hrun
  have hw : WNonneg g := wNonneg_of_edgesPos (edgesPos_build_graph hb)
  have hf := dijkstra_first_route_final hw hres
  rw [hres]
  constructor
  · simp only [minutesEntry, distOf, hf.start_dist, Option.map_some']
    have : secToMinutes 0 = 0 := by decide
    rw [this]
  · simp only [firstRouteEntry, distOf, frOf, hf.start_dist, hf.start_fr, Option.getD_some]

theorem claim_C1_minutes_null_iff_unreachable_witness :
    build_graph [0, 1] [(5, [0, 1])] [((0, 1), 3)] [] 120 = some exGraph ∧
      (dijkstra_first_route exGraph 0 20).isSome = true ∧
      ((minutesEntry (dijkstra_first_route exGraph 0 20) 1 = none ↔
          ¬ Reachable exGraph 0 1) ∧
        (∀ v, distOf (dijkstra_first_route exGraph 0 20) v ≠ none ↔
          Reachable exGraph 0 v)) :=
  ⟨by decide, by decide,
    claim_C1_minutes_null_iff_unreachable [0, 1] [(5, [0, 1])] [((0, 1), 3)] [] 120
      exGraph [0, 1] 20 0 1 (by decide) (by decide) (by decide) (by decide)⟩

theorem claim_C2_diagonal_witness :
    build_graph [0, 1] [(5, [0, 1])] [((0, 1), 3)] [] 120 = some exGraph ∧
      (dijkstra_first_route exGraph 0 20).isSome = true ∧
      minutesEntry (dijkstra_first_route exGraph 0 20) 0 = some 0 ∧
      firstRouteEntry (dijkstra_first_route exGraph 0 20) [] 0 = none :=
  ⟨by decide, by decide,
    claim_C2_diagonal [0, 1] [(5, [0, 1])] [((0, 1), 3)] [] 120 exGraph [0, 1] 20
      [] 0 (by decide) (by decide) (by decide)⟩

/-- Python `int(x)` on an exact rational value: truncation toward zero. -/
def pyTrunc (q : ℚ) : Int := if 0 ≤ q then ⌊q⌋ else ⌈q⌉

/-- `median_int` from `build_matrix.py`, with `statistics.median` embedded:
sort ascending, take the middle element for odd length, and `int()` of the
mean of the two middle elements for even length (the float mean is modelled
exactly over `ℚ`; `int()` truncates toward zero).  `none` models the
`ValueError` raised on an empty list.  The sorted list of ints is unique, so
any sorting function models Python's `sorted`. -/
def median_int (values : List Int) : Option Int :=
  if values.length = 0 then none
  else if values.length = 1 then some (values.getD 0 0)
  else
    let s := values.insertionSort (fun a b => a ≤ b)
    let n := values.length
    if n % 2 = 1 then some (s.getD (n / 2) 0)
    else some (pyTrunc (((s.getD (n / 2 - 1) 0 + s.getD (n / 2) 0 : Int) : ℚ) / 2))

/-- The median of a list rounded to integer seconds, as the spec words it:
middle of the sorted list, or the toward-zero-rounded mean of the two middle
elements for even length. -/
def medianRounded (values : List Int) : Int :=
  let s := values.insertionSort (fun a b => a ≤ b)
  let n := values.length
  if n % 2 = 1 then s.getD (n / 2) 0
  else (s.getD (n / 2 - 1) 0 + s.getD (n / 2) 0).tdiv 2

/-- The per-window weight assembly in `main`:
`for edge, values in seg_lists.items(): weights[edge] = median_int(values)`
(`none` models the `ValueError` escaping on an empty sample list). -/
def buildWeights : List ((StopId × StopId) × List Int) →
    Option (List ((StopId × StopId) × Int))
  | [] => some []
  | (edge, values) :: rest =>
    match median_int values with
    | none => none
    | some m =>
      match buildWeights rest with
      | none => none
      | some ws => some ((edge, m) :: ws)

theorem pyTrunc_half (x : Int) : pyTrunc ((x : ℚ) / 2) = x.tdiv 2 := by
  by_cases h : 0 ≤ x
  · have h2 : (0 : ℚ) ≤ (x : ℚ) / 2 := by
      have : (0 : ℚ) ≤ (x : ℚ) := by exact_mod_cast h
      linarith
    rw [pyTrunc, if_pos h2]
    rw [show ((2 : ℚ)) = ((2 : ℕ) : ℚ) by norm_num]
    rw [Rat.floor_intCast_div_natCast]
    rw [Int.tdiv_eq_ediv h (by norm_num)]
    norm_num
  · push_neg at h
    have h2 : ¬ (0 : ℚ) ≤ (x : ℚ) / 2 := by
      push_neg
      have : (x : ℚ) < 0 := by exact_mod_cast h
      linarith
    rw [pyTrunc, if_neg h2]
    have hceil : ((x : ℚ) / 2) = -(((-x : Int) : ℚ) / 2) := by
      push_cast
      ring
    rw [hceil, Int.ceil_neg]
    rw [show ((2 : ℚ)) = ((2 : ℕ) : ℚ) by norm_num, Rat.floor_intCast_div_natCast]
    rw [show x.tdiv 2 = -((-x).tdiv 2) by rw [Int.neg_tdiv]; ring]
    rw [Int.tdiv_eq_ediv (by omega) (by norm_num)]
    norm_num

theorem median_int_eq {values : List Int} (h : values ≠ []) :
    median_int values = some (medianRounded values) := by
  have h0 : ¬ values.length = 0 := by
    intro hx
    exact h (List.length_eq_zero.mp hx)
  by_cases h1 : values.length = 1
  · rcases List.length_eq_one.mp h1 with ⟨a, ha⟩
    subst ha
    simp [median_int, medianRounded, List.mergeSort]
  · simp only [median_int, medianRounded, if_neg h0, if_neg h1]
    by_cases h2 : values.length % 2 = 1
    · rw [if_pos h2, if_pos h2]
    · rw [if_neg h2, if_neg h2]
      rw [pyTrunc_half]

theorem buildWeights_mem :
    ∀ {segLists : List ((StopId × StopId) × List Int)}
      {ws : List ((StopId × StopId) × Int)} {edge : StopId × StopId}
      {values : List Int},
      buildWeights segLists = some ws → (edge, values) ∈ segLists →
      ∃ m, median_int values = some m ∧ (edge, m) ∈ ws := by
  intro segLists
  induction segLists with
  | nil => intro ws edge values _ hmem; simp at hmem
  | cons hd tl ih =>
    intro ws edge values hw hmem
    obtain ⟨hedge, hvalues⟩ := hd
    simp only [buildWeights] at hw
    rcases hm : median_int hvalues with _ | m
    · rw [hm] at hw; exact absurd hw (by simp)
    · rw [hm] at hw
      rcases hrest : buildWeights tl with _ | ws'
      · rw [hrest] at hw; exact absurd hw (by simp)
      · rw [hrest] at hw
        cases hw
        rcases List.mem_cons.mp hmem with h0 | h0
        · have he : edge = hedge := congrArg Prod.fst h0
          have hv : values = hvalues := congrArg Prod.snd h0
          subst he
          subst hv
          exact ⟨m, hm, List.mem_cons_self _ _⟩
        · rcases ih hrest h0 with ⟨m', hm', hmem'⟩
          exact ⟨m', hm', List.mem_cons_of_mem _ hmem'⟩

/-- C3: for every directed edge with at least one observed sample, the
emitted `segment_weights` map assigns that edge the median of its list of
observed travel seconds rounded to integer seconds (`median_int(values)`,
which equals the sorted-middle median with the even-length mean truncated
toward zero). -/
theorem claim_C3_segment_weights_median
    (segLists : List ((StopId × StopId) × List Int))
    (ws : List ((StopId × StopId) × Int)) (edge : StopId × StopId)
    (values : List Int) (hw : buildWeights segLists = some ws)
    (hmem : (edge, values) ∈ segLists) (hne : values ≠ []) :
    (edge, medianRounded values) ∈ ws ∧
      median_int values = some (medianRounded values) := by
  rcases buildWeights_mem hw hmem with ⟨m, hm, hmemw⟩
  have heq := median_int_eq hne
  rw [hm] at heq
  cases heq
  exact ⟨hmemw, hm⟩

theorem claim_C3_segment_weights_median_witness :
    buildWeights [((0, 1), [5, 3, 4]), ((1, 0), [10, 20])] =
        some [((0, 1), 4), ((1, 0), 15)] ∧
      (((1, 0), medianRounded [10, 20]) ∈ [((0, 1), (4 : Int)), ((1, 0), 15)] ∧
        median_int [10, 20] = some (medianRounded [10, 20])) := by
  have h1 : median_int [5, 3, 4] = some (medianRounded [5, 3, 4]) :=
    median_int_eq (by decide)
  have h2 : median_int [10, 20] = some (medianRounded [10, 20]) :=
    median_int_eq (by decide)
  have hw : buildWeights [((0, 1), [5, 3, 4]), ((1, 0), [10, 20])] =
      some [((0, 1), 4), ((1, 0), 15)] := by
    simp only [buildWeights, h1, h2]
    decide
  exact ⟨hw,
    claim_C3_segment_weights_median [((0, 1), [5, 3, 4]), ((1, 0), [10, 20])]
      [((0, 1), 4), ((1, 0), 15)] (1, 0) [10, 20] hw (by decide) (by decide)⟩

abbrev TractId := Nat

/-- Region tract-weight normalization from `build_derived.py`:
`tract_weights = {k: (v / total_tw) for k, v in tw.items()} if total_tw else {}`
with `total_tw = sum(tw.values())` (float arithmetic modelled over `ℚ`;
`if total_tw` is Python truthiness, i.e. `total_tw != 0`). -/
def normalizeTractWeights (tw : List (TractId × ℚ)) : List (TractId × ℚ) :=
  let total := (tw.map Prod.snd).sum
  if total = 0 then [] else tw.map (fun p => (p.1, p.2 / total))

/-- C8: for every derived region, the sum of the values of its
`tract_weights` map is either 0 (the map is empty) or exactly 1 (the claim
allows a 1e-9 float tolerance; over the exact rational model the sum is
exactly 1). -/
theorem claim_C8_tract_weights_sum (tw : List (TractId × ℚ)) :
    (normalizeTractWeights tw = [] ∧
        ((normalizeTractWeights tw).map Prod.snd).sum = 0) ∨
      ((normalizeTractWeights tw).map Prod.snd).sum = 1 := by
  by_cases h : (tw.map Prod.snd).sum = 0
  · left
    constructor
    · simp [normalizeTractWeights, h]
    · simp [normalizeTractWeights, h]
  · right
    simp only [normalizeTractWeights, if_neg h]
    rw [List.map_map]
    have hmap : (Prod.snd ∘ fun p : TractId × ℚ =>
        (p.1, p.2 / (tw.map Prod.snd).sum)) =
        fun p : TractId × ℚ => p.2 * ((tw.map Prod.snd).sum)⁻¹ := by
      funext p
      simp [div_eq_mul_inv]
    rw [hmap]
    rw [List.sum_map_mul_right]
    exact mul_inv_cancel₀ h

/-- The fields of a corridor row that the sorting and truncation step of
`compute_hub_corridors` reads (floats modelled over `ℚ`; the remaining
emitted fields do not influence the lists' order or length). -/
structure CorridorEntry where
  minutes_saved : Option ℚ
  km_per_min : Option ℚ
  distance_km : ℚ
deriving DecidableEq

/-- `r["minutes_saved"]` on a row that passed the presence filter. -/
def savedKey (r : CorridorEntry) : ℚ := r.minutes_saved.getD 0

/-- `r["km_per_min"]` on a row that passed the presence filter. -/
def speedKey (r : CorridorEntry) : ℚ := r.km_per_min.getD 0

/-- `sort(key=lambda r: (key(r), r["distance_km"]), reverse=True)`:
descending lexicographic order on `(primary key, distance_km)`. -/
def descLex (key : CorridorEntry → ℚ) (a b : CorridorEntry) : Prop :=
  key b < key a ∨ (key a = key b ∧ b.distance_km ≤ a.distance_km)

instance (key : CorridorEntry → ℚ) : DecidableRel (descLex key) := fun a b => by
  unfold descLex
  infer_instance

instance (key : CorridorEntry → ℚ) : IsTotal CorridorEntry (descLex key) := by
  constructor
  intro a b
  rcases lt_trichotomy (key a) (key b) with h | h | h
  · exact Or.inr (Or.inl h)
  · rcases le_total b.distance_km a.distance_km with h2 | h2
    · exact Or.inl (Or.inr ⟨h, h2⟩)
    · exact Or.inr (Or.inr ⟨h.symm, h2⟩)
  · exact Or.inl (Or.inl h)

instance (key : CorridorEntry → ℚ) : IsTrans CorridorEntry (descLex key) := by
  constructor
  intro a b c hab hbc
  rcases hab with h1 | ⟨h1, h1d⟩
  · rcases hbc with h2 | ⟨h2, h2d⟩
    · exact Or.inl (lt_trans h2 h1)
    · exact Or.inl (h2 ▸ h1)
  · rcases hbc with h2 | ⟨h2, h2d⟩
    · exact Or.inl (h1 ▸ h2)
    · exact Or.inr ⟨h1.trans h2, le_trans h2d h1d⟩

/-- The per-hub list assembly of `compute_hub_corridors`: keep the rows whose
primary key is present, sort them descending by `(primary, distance_km)`
(a stable sort models Python's `list.sort`), and truncate to
`min(top_n, 200)`. -/
def topLists (rows : List CorridorEntry) (top_n : Nat) :
    List CorridorEntry × List CorridorEntry :=
  (((rows.filter (fun r => r.minutes_saved.isSome)).insertionSort
      (descLex savedKey)).take (min top_n 200),
    ((rows.filter (fun r => r.km_per_min.isSome)).insertionSort
      (descLex speedKey)).take (min top_n 200))

/-- C7: each emitted per-hub list is sorted by its primary key
(`minutes_saved`, respectively `km_per_min`) descending with ties broken by
`distance_km` descending, contains only rows with that key present, and has
length at most `min(top_n, 200)`. -/
theorem claim_C7_top_lists_sorted_capped (rows : List CorridorEntry) (top_n : Nat) :
    List.Sorted (descLex savedKey) (topLists rows top_n).1 ∧
      (∀ r ∈ (topLists rows top_n).1, r.minutes_saved.isSome = true) ∧
      (topLists rows top_n).1.length ≤ min top_n 200 ∧
      List.Sorted (descLex speedKey) (topLists rows top_n).2 ∧
      (∀ r ∈ (topLists rows top_n).2, r.km_per_min.isSome = true) ∧
      (topLists rows top_n).2.length ≤ min top_n 200 := by
  refine ⟨?_, ?_, ?_, ?_, ?_, ?_⟩
  · exact ((List.sorted_insertionSort (descLex savedKey) _).sublist
      (List.take_sublist _ _))
  · intro r hr
    have hmem : r ∈ (rows.filter (fun r => r.minutes_saved.isSome)).insertionSort
        (descLex savedKey) := (List.take_sublist _ _).mem hr
    have := (List.perm_insertionSort (descLex savedKey) _).mem_iff.mp hmem
    exact (List.mem_filter.mp this).2
  · simp only [topLists, List.length_take]
    omega
  · exact ((List.sorted_insertionSort (descLex speedKey) _).sublist
      (List.take_sublist _ _))
  · intro r hr
    have hmem : r ∈ (rows.filter (fun r => r.km_per_min.isSome)).insertionSort
        (descLex speedKey) := (List.take_sublist _ _).mem hr
    have := (List.perm_insertionSort (descLex speedKey) _).mem_iff.mp hmem
    exact (List.mem_filter.mp this).2
  · simp only [topLists, List.length_take]
    omega

/-- Python `str.strip` default whitespace (ASCII model). -/
def pyIsSpace (c : Char) : Bool :=
  decide (c = ' ' ∨ c = '\t' ∨ c = '\n' ∨ c = '\x0b' ∨ c = '\x0c' ∨ c = '\r')

/-- Python `value.strip()` over an ASCII char-list model of `str`. -/
def pyStrip (cs : List Char) : List Char :=
  ((cs.dropWhile pyIsSpace).reverse.dropWhile pyIsSpace).reverse

/-- Python `value.split(":")`: split at every colon; `"".split(":") == [""]`. -/
def pySplit : List Char → List (List Char)
  | [] => [[]]
  | c :: rest =>
    if c = ':' then [] :: pySplit rest
    else
      match pySplit rest with
      | [] => [[c]]
      | p :: ps => (c :: p) :: ps

/-- Decimal value of a digit character. -/
def digitVal (c : Char) : Nat := c.toNat - '0'.toNat

/-- Tail of a Python integer literal after at least one digit: digits with
single underscores allowed only between digits. -/
def pyIntDigitsAux : Nat → List Char → Option Nat
  | acc, [] => some acc
  | acc, c :: rest =>
    if c.isDigit then pyIntDigitsAux (acc * 10 + digitVal c) rest
    else
      if c = '_' then
        match rest with
        | [] => none
        | c2 :: rest2 =>
          if c2.isDigit then pyIntDigitsAux (acc * 10 + digitVal c2) rest2 else none
      else none

/-- The digit part of a Python integer literal. -/
def pyIntDigits : List Char → Option Nat
  | [] => none
  | c :: rest => if c.isDigit then pyIntDigitsAux (digitVal c) rest else none

/-- Python `int(str)` (ASCII model): strip whitespace, optional sign, then
decimal digits with optional single underscores between digits; `none`
models the `ValueError`. -/
def pyInt (cs : List Char) : Option Int :=
  match pyStrip cs with
  | [] => none
  | c :: rest =>
    if c = '+' then (pyIntDigits rest).map (fun n => (n : Int))
    else
      if c = '-' then (pyIntDigits rest).map (fun n => -(n : Int))
      else (pyIntDigits (c :: rest)).map (fun n => (n : Int))

/-- `parse_gtfs_time_to_seconds` from `build_matrix.py` (the non-`None`
input path): strip, reject empty, split on `":"`, require exactly three
`int()`-parsable fields, reject minute or second out of `[0, 60)` or a
negative hour, else return `h*3600 + m*60 + s`. -/
def parse_gtfs_time_to_seconds (cs : List Char) : Option Int :=
  let v := pyStrip cs
  if v.isEmpty then none
  else
    match pySplit v with
    | [p0, p1, p2] =>
      match pyInt p0, pyInt p1, pyInt p2 with
      | some h, some m, some s =>
        if m < 0 ∨ 60 ≤ m ∨ s < 0 ∨ 60 ≤ s ∨ h < 0 then none
        else some (h * 3600 + m * 60 + s)
      | _, _, _ => none
    | _ => none

/-- The spec pattern `H{1,2}:MM:SS` with `MM, SS ∈ [0, 60)`: decode the
hour, minute and second fields of a string that matches, `none` otherwise. -/
def decodeHMMSS (cs : List Char) : Option (Nat × Nat × Nat) :=
  match cs with
  | [h1, c1, m1, m2, c2, s1, s2] =>
    if c1 = ':' ∧ c2 = ':' ∧ h1.isDigit ∧ m1.isDigit ∧ m2.isDigit ∧
        s1.isDigit ∧ s2.isDigit ∧ digitVal m1 * 10 + digitVal m2 < 60 ∧
        digitVal s1 * 10 + digitVal s2 < 60 then
      some (digitVal h1, digitVal m1 * 10 + digitVal m2,
        digitVal s1 * 10 + digitVal s2)
    else none
  | [h1, h2, c1, m1, m2, c2, s1, s2] =>
    if c1 = ':' ∧ c2 = ':' ∧ h1.isDigit ∧ h2.isDigit ∧ m1.isDigit ∧
        m2.isDigit ∧ s1.isDigit ∧ s2.isDigit ∧
        digitVal m1 * 10 + digitVal m2 < 60 ∧
        digitVal s1 * 10 + digitVal s2 < 60 then
      some (digitVal h1 * 10 + digitVal h2, digitVal m1 * 10 + digitVal m2,
        digitVal s1 * 10 + digitVal s2)
    else none
  | _ => none

theorem dropWhile_eq_self_of_forall {p : Char → Bool} {l : List Char}
    (h : ∀ c ∈ l, p c = false) : l.dropWhile p = l := by
  cases l with
  | nil => rfl
  | cons c rest =>
    rw [List.dropWhile_cons_of_neg]
    simp [h c (List.mem_cons_self _ _)]

theorem pyStrip_eq_self {cs : List Char} (h : ∀ c ∈ cs, pyIsSpace c = false) :
    pyStrip cs = cs := by
  unfold pyStrip
  rw [dropWhile_eq_self_of_forall h]
  rw [dropWhile_eq_self_of_forall (fun c hc => h c (List.mem_reverse.mp hc))]
  exact List.reverse_reverse cs

theorem digit_not_space {c : Char} (h : c.isDigit = true) : pyIsSpace c = false := by
  cases hx : pyIsSpace c
  · rfl
  · exfalso
    have hp := of_decide_eq_true hx
    rcases hp with h1 | h1 | h1 | h1 | h1 | h1 <;>
      · subst h1
        exact absurd h (by decide)

theorem isDigit_ne {c x : Char} (h : c.isDigit = true) (hx : x.isDigit = false) :
    ¬ c = x := by
  intro he
  rw [he, hx] at h
  exact Bool.noConfusion h

theorem pyInt_one_digit {c : Char} (h : c.isDigit = true) :
    pyInt [c] = some ((digitVal c : Nat) : Int) := by
  have hs : pyStrip [c] = [c] := by
    refine pyStrip_eq_self ?_
    intro x hx
    simp at hx
    subst hx
    exact digit_not_space h
  simp only [pyInt, hs]
  rw [if_neg (isDigit_ne h (by decide)), if_neg (isDigit_ne h (by decide))]
  simp [pyIntDigits, h, pyIntDigitsAux]

theorem pyInt_two_digits {c1 c2 : Char} (h1 : c1.isDigit = true)
    (h2 : c2.isDigit = true) :
    pyInt [c1, c2] = some ((digitVal c1 * 10 + digitVal c2 : Nat) : Int) := by
  have hs : pyStrip [c1, c2] = [c1, c2] := by
    refine pyStrip_eq_self ?_
    intro x hx
    simp at hx
    rcases hx with hx | hx <;>
      · subst hx
        first
          | exact digit_not_space h1
          | exact digit_not_space h2
  simp only [pyInt, hs]
  rw [if_neg (isDigit_ne h1 (by decide)), if_neg (isDigit_ne h1 (by decide))]
  simp [pyIntDigits, h1, h2, pyIntDigitsAux]

theorem pySplit_shape1 {h1 m1 m2 s1 s2 : Char} (hh1 : ¬ h1 = ':')
    (hm1 : ¬ m1 = ':') (hm2 : ¬ m2 = ':') (hs1 : ¬ s1 = ':') (hs2 : ¬ s2 = ':') :
    pySplit [h1, ':', m1, m2, ':', s1, s2] = [[h1], [m1, m2], [s1, s2]] := by
  simp [pySplit, hh1, hm1, hm2, hs1, hs2]

theorem pySplit_shape2 {h1 h2 m1 m2 s1 s2 : Char} (hh1 : ¬ h1 = ':')
    (hh2 : ¬ h2 = ':') (hm1 : ¬ m1 = ':') (hm2 : ¬ m2 = ':') (hs1 : ¬ s1 = ':')
    (hs2 : ¬ s2 = ':') :
    pySplit [h1, h2, ':', m1, m2, ':', s1, s2] = [[h1, h2], [m1, m2], [s1, s2]] := by
  simp [pySplit, hh1, hh2, hm1, hm2, hs1, hs2]

theorem parse_on_pattern1 {h1 m1 m2 s1 s2 : Char} (hh1 : h1.isDigit = true)
    (hm1 : m1.isDigit = true) (hm2 : m2.isDigit = true) (hs1 : s1.isDigit = true)
    (hs2 : s2.isDigit = true) (hmlt : digitVal m1 * 10 + digitVal m2 < 60)
    (hslt : digitVal s1 * 10 + digitVal s2 < 60) :
    parse_gtfs_time_to_seconds [h1, ':', m1, m2, ':', s1, s2] =
      some (((digitVal h1 : Nat) : Int) * 3600 +
        ((digitVal m1 * 10 + digitVal m2 : Nat) : Int) * 60 +
        ((digitVal s1 * 10 + digitVal s2 : Nat) : Int)) := by
  have hcolon : pyIsSpace ':' = false := by decide
  have hs : pyStrip [h1, ':', m1, m2, ':', s1, s2] = [h1, ':', m1, m2, ':', s1, s2] := by
    refine pyStrip_eq_self ?_
    intro x hx
    simp at hx
    rcases hx with hx | hx | hx | hx | hx | hx | hx <;> subst hx <;>
      first
        | exact digit_not_space hh1
        | exact digit_not_space hm1
        | exact digit_not_space hm2
        | exact digit_not_space hs1
        | exact digit_not_space hs2
        | exact hcolon
  have hsplit := pySplit_shape1 (isDigit_ne hh1 (by decide)) (isDigit_ne hm1 (by decide))
    (isDigit_ne hm2 (by decide)) (isDigit_ne hs1 (by decide)) (isDigit_ne hs2 (by decide))
  simp only [parse_gtfs_time_to_seconds, hs, List.isEmpty, hsplit, if_neg]
  rw [pyInt_one_digit hh1, pyInt_two_digits hm1 hm2, pyInt_two_digits hs1 hs2]
  dsimp only
  have hcnd : ¬(((digitVal m1 * 10 + digitVal m2 : Nat) : Int) < 0 ∨
      60 ≤ ((digitVal m1 * 10 + digitVal m2 : Nat) : Int) ∨
      ((digitVal s1 * 10 + digitVal s2 : Nat) : Int) < 0 ∨
      60 ≤ ((digitVal s1 * 10 + digitVal s2 : Nat) : Int) ∨
      ((digitVal h1 : Nat) : Int) < 0) := by
    push_cast
    omega
  rw [if_neg hcnd]
  simp

theorem parse_on_pattern2 {h1 h2 m1 m2 s1 s2 : Char} (hh1 : h1.isDigit = true)
    (hh2 : h2.isDigit = true) (hm1 : m1.isDigit = true) (hm2 : m2.isDigit = true)
    (hs1 : s1.isDigit = true) (hs2 : s2.isDigit = true)
    (hmlt : digitVal m1 * 10 + digitVal m2 < 60)
    (hslt : digitVal s1 * 10 + digitVal s2 < 60) :
    parse_gtfs_time_to_seconds [h1, h2, ':', m1, m2, ':', s1, s2] =
      some (((digitVal h1 * 10 + digitVal h2 : Nat) : Int) * 3600 +
        ((digitVal m1 * 10 + digitVal m2 : Nat) : Int) * 60 +
        ((digitVal s1 * 10 + digitVal s2 : Nat) : Int)) := by
  have hcolon : pyIsSpace ':' = false := by decide
  have hs : pyStrip [h1, h2, ':', m1, m2, ':', s1, s2] =
      [h1, h2, ':', m1, m2, ':', s1, s2] := by
    refine pyStrip_eq_self ?_
    intro x hx
    simp at hx
    rcases hx with hx | hx | hx | hx | hx | hx | hx | hx <;> subst hx <;>
      first
        | exact digit_not_space hh1
        | exact digit_not_space hh2
        | exact digit_not_space hm1
        | exact digit_not_space hm2
        | exact digit_not_space hs1
        | exact digit_not_space hs2
        | exact hcolon
  have hsplit := pySplit_shape2 (isDigit_ne hh1 (by decide)) (isDigit_ne hh2 (by decide))
    (isDigit_ne hm1 (by decide)) (isDigit_ne hm2 (by decide))
    (isDigit_ne hs1 (by decide)) (isDigit_ne hs2 (by decide))
  simp only [parse_gtfs_time_to_seconds, hs, List.isEmpty, hsplit, if_neg]
  rw [pyInt_two_digits hh1 hh2, pyInt_two_digits hm1 hm2, pyInt_two_digits hs1 hs2]
  dsimp only
  have hcnd : ¬(((digitVal m1 * 10 + digitVal m2 : Nat) : Int) < 0 ∨
      60 ≤ ((digitVal m1 * 10 + digitVal m2 : Nat) : Int) ∨
      ((digitVal s1 * 10 + digitVal s2 : Nat) : Int) < 0 ∨
      60 ≤ ((digitVal s1 * 10 + digitVal s2 : Nat) : Int) ∨
      ((digitVal h1 * 10 + digitVal h2 : Nat) : Int) < 0) := by
    push_cast
    omega
  rw [if_neg hcnd]
  simp

/-- C4 fails as stated: `"7:5:3"` does not match `H{1,2}:MM:SS` (minutes and
seconds must be two digits), yet the parser accepts it and returns
`7*3600 + 5*60 + 3`, so `None` is not equivalent to empty-or-malformed. -/
theorem claim_C4_counterexample :
    decodeHMMSS ['7', ':', '5', ':', '3'] = none ∧
      parse_gtfs_time_to_seconds ['7', ':', '5', ':', '3'] = some 25503 := by
  constructor
  · rfl
  · decide

/-- C4 (amended): every string matching `H{1,2}:MM:SS` with `MM, SS ∈ [0, 60)`
parses to `h*3600 + m*60 + s`, and an empty (or all-whitespace) string parses
to `None`; but a `None` result is not equivalent to pattern mismatch — the
parser also accepts other colon-separated integer forms such as single-digit
fields (see the counterexample). -/
theorem claim_C4_parse_time (cs : List Char) :
    (∀ h m s : Nat, decodeHMMSS cs = some (h, m, s) →
        parse_gtfs_time_to_seconds cs =
          some ((h : Int) * 3600 + (m : Int) * 60 + (s : Int))) ∧
      (pyStrip cs = [] → parse_gtfs_time_to_seconds cs = none) := by
  constructor
  · intro h m s hdec
    unfold decodeHMMSS at hdec
    split at hdec
    · rename_i h1 c1 m1 m2 c2 s1 s2
      split_ifs at hdec with hcond
      obtain ⟨hc1, hc2, hh1, hm1, hm2, hs1, hs2, hmlt, hslt⟩ := hcond
      subst hc1
      subst hc2
      simp only [Option.some.injEq, Prod.mk.injEq] at hdec
      obtain ⟨hh, hm, hs⟩ := hdec
      subst hh
      subst hm
      subst hs
      exact parse_on_pattern1 hh1 hm1 hm2 hs1 hs2 hmlt hslt
    · rename_i h1 h2 c1 m1 m2 c2 s1 s2
      split_ifs at hdec with hcond
      obtain ⟨hc1, hc2, hh1, hh2, hm1, hm2, hs1, hs2, hmlt, hslt⟩ := hcond
      subst hc1
      subst hc2
      simp only [Option.some.injEq, Prod.mk.injEq] at hdec
      obtain ⟨hh, hm, hs⟩ := hdec
      subst hh
      subst hm
      subst hs
      exact parse_on_pattern2 hh1 hh2 hm1 hm2 hs1 hs2 hmlt hslt
    · exact Option.noConfusion hdec
  · intro hstrip
    simp [parse_gtfs_time_to_seconds, hstrip]

theorem claim_C4_parse_time_witness :
    decodeHMMSS ['0', '7', ':', '0', '5', ':', '0', '9'] = some (7, 5, 9) ∧
      parse_gtfs_time_to_seconds ['0', '7', ':', '0', '5', ':', '0', '9'] =
        some ((7 : Int) * 3600 + (5 : Int) * 60 + (9 : Int)) :=
  ⟨by decide,
    (claim_C4_parse_time ['0', '7', ':', '0', '5', ':', '0', '9']).1 7 5 9 (by decide)⟩

/-- Pointwise relation between two parallel graphs: identical structure with
the second graph's edge weights at least the first's. -/
def EdgeRel (e1 e2 : Edge) : Prop := e1.dst = e2.dst ∧ e1.sec ≤ e2.sec

/-- Spine-parallel graph relation: same keys in the same order, edge lists
related pointwise by `EdgeRel`. -/
def GraphRel (g1 g2 : Graph) : Prop :=
  List.Forall₂ (fun p q => p.1 = q.1 ∧ List.Forall₂ EdgeRel p.2 q.2) g1 g2

theorem edgeRel_refl (e : Edge) : EdgeRel e e := ⟨rfl, le_refl _⟩

theorem forall₂_edgeRel_refl (es : List Edge) : List.Forall₂ EdgeRel es es := by
  induction es with
  | nil => exact List.Forall₂.nil
  | cons e rest ih => exact List.Forall₂.cons (edgeRel_refl e) ih

theorem graphRel_refl (g : Graph) : GraphRel g g := by
  induction g with
  | nil => exact List.Forall₂.nil
  | cons p rest ih => exact List.Forall₂.cons ⟨rfl, forall₂_edgeRel_refl p.2⟩ ih

theorem forall₂_mem_right {R : Edge → Edge → Prop} :
    ∀ {l1 l2 : List Edge}, List.Forall₂ R l1 l2 → ∀ e2 ∈ l2, ∃ e1 ∈ l1, R e1 e2 := by
  intro l1 l2 h
  induction h with
  | nil => intro e2 he2; simp at he2
  | cons hr _ ih =>
    intro e2 he2
    rcases List.mem_cons.mp he2 with h0 | h0
    · subst h0
      exact ⟨_, List.mem_cons_self _ _, hr⟩
    · rcases ih e2 h0 with ⟨e1, he1, hre⟩
      exact ⟨e1, List.mem_cons_of_mem _ he1, hre⟩

theorem forall₂_mem_left {R : Edge → Edge → Prop} :
    ∀ {l1 l2 : List Edge}, List.Forall₂ R l1 l2 → ∀ e1 ∈ l1, ∃ e2 ∈ l2, R e1 e2 := by
  intro l1 l2 h
  induction h with
  | nil => intro e1 he1; simp at he1
  | cons hr _ ih =>
    intro e1 he1
    rcases List.mem_cons.mp he1 with h0 | h0
    · subst h0
      exact ⟨_, List.mem_cons_self _ _, hr⟩
    · rcases ih e1 h0 with ⟨e2, he2, hre⟩
      exact ⟨e2, List.mem_cons_of_mem _ he2, hre⟩

theorem graphRel_adj {g1 g2 : Graph} (h : GraphRel g1 g2) (u : StopId) :
    List.Forall₂ EdgeRel (adj g1 u) (adj g2 u) := by
  induction h with
  | nil => exact List.Forall₂.nil
  | @cons p q _ _ hpq _ ih =>
    by_cases hk : p.1 = u
    · have hq : q.1 = u := hpq.1 ▸ hk
      simp only [adj, alistFind?, if_pos hk, if_pos hq, Option.getD_some]
      exact hpq.2
    · have hq : ¬ q.1 = u := fun hx => hk (hpq.1 ▸ hx)
      simpa only [adj, alistFind?, if_neg hk, if_neg hq] using ih

theorem walkLen_of_graphRel {g1 g2 : Graph} {s : StopId} (hrel : GraphRel g1 g2) :
    ∀ {v : StopId} {L2 : Int}, WalkLen g2 s v L2 →
      ∃ L1, L1 ≤ L2 ∧ WalkLen g1 s v L1 := by
  intro v L2 h
  induction h with
  | refl => exact ⟨0, le_refl 0, WalkLen.refl⟩
  | @step u L e2 _ he2 ih =>
    rcases ih with ⟨L1, hle, hw1⟩
    rcases forall₂_mem_right (graphRel_adj hrel u) e2 he2 with ⟨e1, he1, hdst, hsec⟩
    refine ⟨L1 + e1.sec, by omega, ?_⟩
    rw [← hdst]
    exact WalkLen.step hw1 he1

theorem reachable_of_graphRel_left {g1 g2 : Graph} {s : StopId}
    (hrel : GraphRel g1 g2) : ∀ {v : StopId}, Reachable g1 s v → Reachable g2 s v := by
  intro v h
  induction h with
  | refl => exact Reachable.refl
  | @step u e1 _ he1 ih =>
    rcases forall₂_mem_left (graphRel_adj hrel u) e1 he1 with ⟨e2, he2, hdst, _⟩
    rw [hdst]
    exact Reachable.step ih he2

theorem reachable_of_graphRel_right {g1 g2 : Graph} {s : StopId}
    (hrel : GraphRel g1 g2) : ∀ {v : StopId}, Reachable g2 s v → Reachable g1 s v := by
  intro v h
  induction h with
  | refl => exact Reachable.refl
  | @step u e2 _ he2 ih =>
    rcases forall₂_mem_right (graphRel_adj hrel u) e2 he2 with ⟨e1, he1, hdst, _⟩
    rw [← hdst]
    exact Reachable.step ih he1

theorem forall₂_edge_append {R : Edge → Edge → Prop} :
    ∀ {l1 l2 u1 u2 : List Edge}, List.Forall₂ R l1 l2 → List.Forall₂ R u1 u2 →
      List.Forall₂ R (l1 ++ u1) (l2 ++ u2) := by
  intro l1 l2 u1 u2 h hu
  induction h with
  | nil => exact hu
  | cons hr _ ih => exact List.Forall₂.cons hr ih

theorem graphRel_appendEdge {u : StopId} {e1 e2 : Edge} (hre : EdgeRel e1 e2) :
    ∀ {g1 g2 : Graph}, GraphRel g1 g2 →
      GraphRel (appendEdge g1 u e1) (appendEdge g2 u e2) := by
  intro g1 g2 h
  induction h with
  | nil => exact List.Forall₂.nil
  | @cons p q tl1 tl2 hpq htl ih =>
    obtain ⟨k1, es1⟩ := p
    obtain ⟨k2, es2⟩ := q
    have hk : k1 = k2 := hpq.1
    subst hk
    simp only [appendEdge]
    by_cases hu : k1 = u
    · rw [if_pos hu, if_pos hu]
      refine List.Forall₂.cons ⟨rfl, ?_⟩ htl
      exact forall₂_edge_append hpq.2 (List.Forall₂.cons hre List.Forall₂.nil)
    · rw [if_neg hu, if_neg hu]
      exact List.Forall₂.cons hpq ih

theorem hasKey_of_graphRel {g1 g2 : Graph} (h : GraphRel g1 g2) (u : StopId) :
    hasKey g1 u = hasKey g2 u := by
  induction h with
  | nil => rfl
  | @cons p q _ _ hpq _ ih =>
    by_cases hk : p.1 = u
    · have hq : q.1 = u := hpq.1 ▸ hk
      simp [hasKey, alistFind?, hk, hq]
    · have hq : ¬ q.1 = u := fun hx => hk (hpq.1 ▸ hx)
      simpa only [hasKey, alistFind?, if_neg hk, if_neg hq] using ih

theorem graphRel_addEdgesTo {t1 t2 : Int} (hts : t1 ≤ t2) {u : StopId} :
    ∀ {targets : List StopId} {g1 g2 h1 h2 : Graph}, GraphRel g1 g2 →
      addEdgesTo t1 u targets g1 = some h1 → addEdgesTo t2 u targets g2 = some h2 →
      GraphRel h1 h2 := by
  intro targets
  induction targets with
  | nil =>
    intro g1 g2 h1 h2 hrel ha hb
    simp only [addEdgesTo] at ha hb
    cases ha
    cases hb
    exact hrel
  | cons v rest ih =>
    intro g1 g2 h1 h2 hrel ha hb
    simp only [addEdgesTo] at ha hb
    rcases hx1 : appendEdge? g1 u ⟨v, t1, none⟩ with _ | g1'
    · rw [hx1] at ha; exact absurd ha (by simp)
    rcases hx2 : appendEdge? g2 u ⟨v, t2, none⟩ with _ | g2'
    · rw [hx2] at hb; exact absurd hb (by simp)
    rw [hx1] at ha
    rw [hx2] at hb
    dsimp only at ha hb
    simp only [appendEdge?] at hx1 hx2
    by_cases hk1 : hasKey g1 u
    · rw [if_pos hk1] at hx1
      rw [if_pos ((hasKey_of_graphRel hrel u) ▸ hk1)] at hx2
      cases hx1
      cases hx2
      exact ih (@graphRel_appendEdge u ⟨v, t1, none⟩ ⟨v, t2, none⟩
        ⟨rfl, hts⟩ _ _ hrel) ha hb
    · rw [if_neg hk1] at hx1
      exact absurd hx1 (by simp)

theorem graphRel_addComplexTransfers {t1 t2 : Int} (hts : t1 ≤ t2) :
    ∀ {children before : List StopId} {g1 g2 h1 h2 : Graph}, GraphRel g1 g2 →
      addComplexTransfers t1 before children g1 = some h1 →
      addComplexTransfers t2 before children g2 = some h2 → GraphRel h1 h2 := by
  intro children
  induction children with
  | nil =>
    intro before g1 g2 h1 h2 hrel ha hb
    simp only [addComplexTransfers] at ha hb
    cases ha
    cases hb
    exact hrel
  | cons u rest ih =>
    intro before g1 g2 h1 h2 hrel ha hb
    simp only [addComplexTransfers] at ha hb
    rcases hx1 : addEdgesTo t1 u (before ++ rest) g1 with _ | g1'
    · rw [hx1] at ha; exact absurd ha (by simp)
    rcases hx2 : addEdgesTo t2 u (before ++ rest) g2 with _ | g2'
    · rw [hx2] at hb; exact absurd hb (by simp)
    rw [hx1] at ha
    rw [hx2] at hb
    dsimp only at ha hb
    exact ih (graphRel_addEdgesTo hts hrel hx1 hx2) ha hb

theorem graphRel_addTransfers {t1 t2 : Int} (hts : t1 ≤ t2) :
    ∀ {ptc : List (StopId × List StopId)} {g1 g2 h1 h2 : Graph}, GraphRel g1 g2 →
      addTransfers t1 ptc g1 = some h1 → addTransfers t2 ptc g2 = some h2 →
      GraphRel h1 h2 := by
  intro ptc
  induction ptc with
  | nil =>
    intro g1 g2 h1 h2 hrel ha hb
    simp only [addTransfers] at ha hb
    cases ha
    cases hb
    exact hrel
  | cons hd tl ih =>
    intro g1 g2 h1 h2 hrel ha hb
    simp only [addTransfers] at ha hb
    by_cases hlen : hd.2.length < 2
    · rw [if_pos hlen] at ha hb
      exact ih hrel ha hb
    · rw [if_neg hlen] at ha hb
      rcases hx1 : addComplexTransfers t1 [] hd.2 g1 with _ | g1'
      · rw [hx1] at ha; exact absurd ha (by simp)
      rcases hx2 : addComplexTransfers t2 [] hd.2 g2 with _ | g2'
      · rw [hx2] at hb; exact absurd hb (by simp)
      rw [hx1] at ha
      rw [hx2] at hb
      dsimp only at ha hb
      exact ih (graphRel_addComplexTransfers hts hrel hx1 hx2) ha hb

theorem graphRel_build_graph {stops : List StopId}
    {ptc : List (StopId × List StopId)} {segw : SegWeights} {segr : SegRoutes}
    {t1 t2 : Int} {g1 g2 : Graph} (h1pos : 0 < t1) (hts : t1 ≤ t2)
    (hb1 : build_graph stops ptc segw segr t1 = some g1)
    (hb2 : build_graph stops ptc segw segr t2 = some g2) : GraphRel g1 g2 := by
  have h2pos : 0 < t2 := lt_of_lt_of_le h1pos hts
  simp only [build_graph] at hb1 hb2
  rw [if_pos h1pos] at hb1
  rw [if_pos h2pos] at hb2
  exact graphRel_addTransfers hts (graphRel_refl _) hb1 hb2

theorem final_dist_mono {g1 g2 : Graph} {s : StopId} {res1 res2 : DijkstraResult}
    (hrel : GraphRel g1 g2) (hf1 : DFinal g1 s res1) (hf2 : DFinal g2 s res2) :
    ∀ v, (res1.dist v = none ↔ res2.dist v = none) ∧
      (∀ d1 d2, res1.dist v = some d1 → res2.dist v = some d2 → d1 ≤ d2) := by
  intro v
  refine ⟨⟨?_, ?_⟩, ?_⟩
  · intro h1
    rcases h2 : res2.dist v with _ | d2
    · rfl
    · exfalso
      have hr2 : Reachable g2 s v := (final_keys_iff hf2 v).mp (by rw [h2]; simp)
      have hr1 : Reachable g1 s v := reachable_of_graphRel_right hrel hr2
      exact (final_keys_iff hf1 v).mpr hr1 h1
  · intro h2
    rcases h1 : res1.dist v with _ | d1
    · rfl
    · exfalso
      have hr1 : Reachable g1 s v := (final_keys_iff hf1 v).mp (by rw [h1]; simp)
      have hr2 : Reachable g2 s v := reachable_of_graphRel_left hrel hr1
      exact (final_keys_iff hf2 v).mpr hr2 h2
  · intro d1 d2 h1 h2
    have hw2 : WalkLen g2 s v d2 := hf2.walk v d2 h2
    rcases walkLen_of_graphRel hrel hw2 with ⟨L1, hle, hw1⟩
    rcases final_dist_le hf1 hw1 with ⟨d1', hd1', hle2⟩
    rw [h1] at hd1'
    cases hd1'
    omega

theorem secToMinutes_mono {a b : Int} (h : a ≤ b) : secToMinutes a ≤ secToMinutes b := by
  unfold secToMinutes
  rw [Int.fdiv_eq_ediv _ (by norm_num), Int.fdiv_eq_ediv _ (by norm_num)]
  omega

/-- The rounded-minutes entry must not cross from non-positive (skipped by
the harmonic sum) to positive when the transfer penalty grows. -/
def noZeroCross (o1 o2 : Option Int) : Prop :=
  match o1, o2 with
  | some m1, some m2 => m1 ≤ 0 → m2 ≤ 0
  | _, _ => True

instance (o1 o2 : Option Int) : Decidable (noZeroCross o1 o2) :=
  match o1, o2 with
  | some m1, some m2 => (inferInstance : Decidable (m1 ≤ 0 → m2 ≤ 0))
  | none, none => isTrue trivial
  | none, some _ => isTrue trivial
  | some _, none => isTrue trivial

/-- Entry-wise relation that forces the harmonic sum to shrink. -/
def HarmonicRel (o1 o2 : Option Int) : Prop :=
  (o1 = none ↔ o2 = none) ∧
    ∀ m1 m2, o1 = some m1 → o2 = some m2 → m1 ≤ m2 ∧ (m1 ≤ 0 → m2 ≤ 0)

theorem harmonic_foldl_mono :
    ∀ {row1 row2 : List (Option Int)}, List.Forall₂ HarmonicRel row1 row2 →
      ∀ acc1 acc2 : ℚ, acc2 ≤ acc1 →
        row2.foldl harmonicStep acc2 ≤ row1.foldl harmonicStep acc1 := by
  intro row1 row2 h
  induction h with
  | nil =>
    intro acc1 acc2 hacc
    simpa using hacc
  | @cons o1 o2 t1 t2 hr _ ih =>
    intro acc1 acc2 hacc
    simp only [List.foldl_cons]
    apply ih
    rcases hr with ⟨hnone, hsome⟩
    rcases ho1 : o1 with _ | m1
    · have ho2 : o2 = none := hnone.mp ho1
      subst ho2
      simpa [harmonicStep] using hacc
    · rcases ho2 : o2 with _ | m2
      · exfalso
        rw [hnone.mpr ho2] at ho1
        exact Option.noConfusion ho1
      · obtain ⟨hle, hcross⟩ := hsome m1 m2 ho1 ho2
        by_cases hm1 : m1 ≤ 0
        · have hm2 := hcross hm1
          simpa [harmonicStep, hm1, hm2] using hacc
        · have hm2 : ¬ m2 ≤ 0 := fun hx => hm1 (by omega)
          simp only [harmonicStep, if_neg hm1, if_neg hm2]
          have h1 : (0 : ℚ) < (m1 : ℚ) := by
            have : (0 : Int) < m1 := by omega
            exact_mod_cast this
          have hmle : (m1 : ℚ) ≤ (m2 : ℚ) := by exact_mod_cast hle
          have := one_div_le_one_div_of_le h1 hmle
          linarith

theorem forall₂_map_of_forall {α : Type} {R : Option Int → Option Int → Prop}
    {f g : α → Option Int} :
    ∀ {l : List α}, (∀ v ∈ l, R (f v) (g v)) →
      List.Forall₂ R (l.map f) (l.map g) := by
  intro l
  induction l with
  | nil => intro _; exact List.Forall₂.nil
  | cons a t ih =>
    intro h
    exact List.Forall₂.cons (h a (List.mem_cons_self _ _))
      (ih (fun v hv => h v (List.mem_cons_of_mem _ hv)))

/-- C5 (amended): with a positive base transfer time and two uniform
penalties giving total transfer seconds `t1 ≤ t2`, every finished pair of
runs has pointwise larger (and identically-`None`) minutes under `t2`, and —
provided no entry's rounded minutes crosses from non-positive under `t1` to
positive under `t2` (`noZeroCross`) — each row's harmonic centrality under
`t2` is at most the one under `t1`.  Without the `noZeroCross` proviso the
claim is false (see the counterexample: a 15-second transfer rounds to 0
minutes and is skipped, while the penalized 75-second transfer rounds to 1
minute and contributes 1). -/
theorem claim_C5_harmonic_transfer_penalty
    (stops : List StopId) (ptc : List (StopId × List StopId)) (segw : SegWeights)
    (segr : SegRoutes) (t1 t2 : Int) (g1 g2 : Graph) (s : StopId)
    (reps : List StopId) (fuel1 fuel2 : Nat)
    (h1pos : 0 < t1) (hts : t1 ≤ t2)
    (hb1 : build_graph stops ptc segw segr t1 = some g1)
    (hb2 : build_graph stops ptc segw segr t2 = some g2)
    (hr1 : (dijkstra_first_route g1 s fuel1).isSome = true)
    (hr2 : (dijkstra_first_route g2 s fuel2).isSome = true)
    (hcross : ∀ v ∈ reps, noZeroCross
      (minutesEntry (dijkstra_first_route g1 s fuel1) v)
      (minutesEntry (dijkstra_first_route g2 s fuel2) v)) :
    harmonic_centrality_from_minutes_row
        (minutesRow (dijkstra_first_route g2 s fuel2) reps) ≤
      harmonic_centrality_from_minutes_row
        (minutesRow (dijkstra_first_route g1 s fuel1) reps) := by
  obtain ⟨res1, hres1⟩ := Option.isSome_iff_exists.mp hr1
  obtain ⟨res2, hres2⟩ := Option.isSome_iff_exists.mp hr2
  have hrel : GraphRel g1 g2 := graphRel_build_graph h1pos hts hb1 hb2
  have hf1 : DFinal g1 s res1 :=
    dijkstra_first_route_final (wNonneg_of_edgesPos (edgesPos_build_graph hb1)) hres1
  have hf2 : DFinal g2 s res2 :=
    dijkstra_first_route_final (wNonneg_of_edgesPos (edgesPos_build_graph hb2)) hres2
  have hmono := final_dist_mono hrel hf1 hf2
  rw [hres1, hres2]
  rw [hres1, hres2] at hcross
  unfold harmonic_centrality_from_minutes_row minutesRow
  apply harmonic_foldl_mono _ 0 0 (le_refl 0)
  apply forall₂_map_of_forall
  intro v hv
  have hc := hcross v hv
  constructor
  · simp only [minutesEntry, distOf]
    constructor
    · intro h
      have : res1.dist v = none := by
        rcases hx : res1.dist v with _ | d
        · rfl
        · rw [hx] at h
          simp at h
      rw [(hmono v).1.mp this]
      rfl
    · intro h
      have : res2.dist v = none := by
        rcases hx : res2.dist v with _ | d
        · rfl
        · rw [hx] at h
          simp at h
      rw [(hmono v).1.mpr this]
      rfl
  · intro m1 m2 hm1 hm2
    simp only [minutesEntry, distOf] at hm1 hm2
    rcases hx1 : res1.dist v with _ | d1
    · rw [hx1] at hm1
      exact absurd hm1 (by simp)
    rcases hx2 : res2.dist v with _ | d2
    · rw [hx2] at hm2
      exact absurd hm2 (by simp)
    rw [hx1] at hm1
    rw [hx2] at hm2
    simp only [Option.map_some', Option.some.injEq] at hm1 hm2
    have hd := (hmono v).2 d1 d2 hx1 hx2
    constructor
    · rw [← hm1, ← hm2]
      exact secToMinutes_mono hd
    · intro hm1z
      have hcc : noZeroCross (some m1) (some m2) := by
        have e1 : minutesEntry (some res1) v = some m1 := by
          simp [minutesEntry, distOf, hx1, hm1]
        have e2 : minutesEntry (some res2) v = some m2 := by
          simp [minutesEntry, distOf, hx2, hm2]
        rw [e1, e2] at hc
        exact hc
      exact hcc hm1z

/-- C5 fails as stated: on a transfer-only two-stop complex, raising the
uniform transfer seconds from 15 to 75 raises the origin row's harmonic
score from 0 to 1: the 15-second trip rounds to 0 minutes (skipped by the
harmonic sum) while the 75-second trip rounds to 1 minute. -/
theorem claim_C5_counterexample :
    build_graph [0, 1] [(5, [0, 1])] [] [] 15 =
        some [(0, [⟨1, 15, none⟩]), (1, [⟨0, 15, none⟩])] ∧
      build_graph [0, 1] [(5, [0, 1])] [] [] 75 =
        some [(0, [⟨1, 75, none⟩]), (1, [⟨0, 75, none⟩])] ∧
      harmonic_centrality_from_minutes_row
          (minutesRow (dijkstra_first_route
            [(0, [⟨1, 15, none⟩]), (1, [⟨0, 15, none⟩])] 0 20) [0, 1]) = 0 ∧
      harmonic_centrality_from_minutes_row
          (minutesRow (dijkstra_first_route
            [(0, [⟨1, 75, none⟩]), (1, [⟨0, 75, none⟩])] 0 20) [0, 1]) = 1 ∧
      ¬ (harmonic_centrality_from_minutes_row
            (minutesRow (dijkstra_first_route
              [(0, [⟨1, 75, none⟩]), (1, [⟨0, 75, none⟩])] 0 20) [0, 1]) ≤
          harmonic_centrality_from_minutes_row
            (minutesRow (dijkstra_first_route
              [(0, [⟨1, 15, none⟩]), (1, [⟨0, 15, none⟩])] 0 20) [0, 1])) := by
  have hrow15 : minutesRow (dijkstra_first_route
      [(0, [⟨1, 15, none⟩]), (1, [⟨0, 15, none⟩])] 0 20) [0, 1] =
      [some 0, some 0] := by decide
  have hrow75 : minutesRow (dijkstra_first_route
      [(0, [⟨1, 75, none⟩]), (1, [⟨0, 75, none⟩])] 0 20) [0, 1] =
      [some 0, some 1] := by decide
  refine ⟨by decide, by decide, ?_, ?_, ?_⟩
  · rw [hrow15]
    norm_num [harmonic_centrality_from_minutes_row, List.foldl, harmonicStep]
  · rw [hrow75]
    norm_num [harmonic_centrality_from_minutes_row, List.foldl, harmonicStep]
  · rw [hrow15, hrow75]
    norm_num [harmonic_centrality_from_minutes_row, List.foldl, harmonicStep]

theorem claim_C5_harmonic_transfer_penalty_witness :
    (0 : Int) < 120 ∧ (120 : Int) ≤ 360 ∧
      build_graph [0, 1] [(5, [0, 1])] [] [] 120 =
        some [(0, [⟨1, 120, none⟩]), (1, [⟨0, 120, none⟩])] ∧
      build_graph [0, 1] [(5, [0, 1])] [] [] 360 =
        some [(0, [⟨1, 360, none⟩]), (1, [⟨0, 360, none⟩])] ∧
      harmonic_centrality_from_minutes_row
          (minutesRow (dijkstra_first_route
            [(0, [⟨1, 360, none⟩]), (1, [⟨0, 360, none⟩])] 0 20) [0, 1]) ≤
        harmonic_centrality_from_minutes_row
          (minutesRow (dijkstra_first_route
            [(0, [⟨1, 120, none⟩]), (1, [⟨0, 120, none⟩])] 0 20) [0, 1]) :=
  ⟨by decide, by decide, by decide, by decide,
    claim_C5_harmonic_transfer_penalty [0, 1] [(5, [0, 1])] [] [] 120 360
      [(0, [⟨1, 120, none⟩]), (1, [⟨0, 120, none⟩])]
      [(0, [⟨1, 360, none⟩]), (1, [⟨0, 360, none⟩])] 0 [0, 1] 20 20
      (by decide) (by decide) (by decide) (by decide) (by decide) (by decide)
      (by decide)⟩

/-- The fields of a derived region read by the three name de-duplication
passes of `build_derived.py` (names as ASCII char lists; the centroid and
anchor-station coordinates as optional rationals, `none` modelling a missing
entry). -/
structure Region where
  id : List Char
  name : List Char
  aliases : List (List Char)
  anchor_station : List Char
  lat : Option ℚ
  lon : Option ℚ
  slat : Option ℚ
  slon : Option ℚ
deriving DecidableEq

/-- `normalize_name_key`: `(name or "").strip().lower()`. -/
def normalize_name_key (name : List Char) : List Char :=
  (pyStrip name).map Char.toLower

/-- `add_alias`: prepend the alias, dropping empties and duplicates of it. -/
def add_alias (r : Region) (a2 : List Char) : Region :=
  if a2 = [] then r
  else { r with aliases := a2 :: r.aliases.filter (fun a => decide (a ≠ [] ∧ a ≠ a2)) }

/-- The ` · ` separator used by all three passes. -/
def sep : List Char := [' ', '·', ' ']

/-- Occurrences of normalized key `k` among the region names
(`name_counts[key]`, built before each pass). -/
def nameKeyCount (rs : List Region) (k : List Char) : Nat :=
  (rs.filter (fun r => decide (normalize_name_key r.name = k))).length

/-- De-duplication pass 1: regions whose nonempty normalized name collides
and that have an anchor station get ` · <station>` appended (the previous
name becomes an alias). -/
def dedupPass1 (rs : List Region) : List Region :=
  rs.map (fun r =>
    let key := normalize_name_key r.name
    if key = [] ∨ nameKeyCount rs key ≤ 1 then r
    else
      if r.anchor_station = [] then r
      else { add_alias r r.name with name := r.name ++ sep ++ r.anchor_station })

/-- The 8 compass labels, in the source's bin order. -/
def dirs : List (List Char) :=
  [['E'], ['N', 'E'], ['N'], ['N', 'W'], ['W'], ['S', 'W'], ['S'], ['S', 'E']]

/-- `compass_label`: `None` when a coordinate is missing or both deltas are
under `1e-6`; otherwise one of the 8 labels picked by binning
`degrees(atan2(dy, dx))` — the transcendental float binning is abstracted
as the oracle `bin` (the stated claims do not depend on which bin is
chosen). -/
def compass_label (bin : ℚ → ℚ → Fin 8) (lat lon slat slon : Option ℚ) :
    Option (List Char) :=
  match lat, lon, slat, slon with
  | some lat, some lon, some slat, some slon =>
    let dx := lon - slon
    let dy := lat - slat
    if |dx| < 1 / 1000000 ∧ |dy| < 1 / 1000000 then none
    else some (dirs.getD (bin dy dx).1 [])
  | _, _, _, _ => none

/-- De-duplication pass 2: remaining collisions get ` · <compass direction>`
from the anchor station toward the region centroid. -/
def dedupPass2 (bin : ℚ → ℚ → Fin 8) (rs : List Region) : List Region :=
  rs.map (fun r =>
    let key := normalize_name_key r.name
    if key = [] ∨ nameKeyCount rs key ≤ 1 then r
    else
      match compass_label bin r.lat r.lon r.slat r.slon with
      | none => r
      | some lbl => { add_alias r r.name with name := r.name ++ sep ++ lbl })

/-- Python string `<=` (lexicographic by code point). -/
def strLe : List Char → List Char → Bool
  | [], _ => true
  | _ :: _, [] => false
  | c1 :: t1, c2 :: t2 => if c1 = c2 then strLe t1 t2 else decide (c1 < c2)

/-- Decimal digit characters. -/
def digitChar : Nat → Char
  | 0 => '0'
  | 1 => '1'
  | 2 => '2'
  | 3 => '3'
  | 4 => '4'
  | 5 => '5'
  | 6 => '6'
  | 7 => '7'
  | 8 => '8'
  | _ => '9'

/-- Decimal representation with explicit fuel (structural, so that concrete
instances compute in the kernel). -/
def natReprAux : Nat → Nat → List Char
  | 0, _ => []
  | fuel + 1, n =>
    if n < 10 then [digitChar n]
    else natReprAux fuel (n / 10) ++ [digitChar (n % 10)]

/-- Python `str(n)` for a natural number. -/
def natRepr (n : Nat) : List Char := natReprAux (n + 1) n

/-- The renaming applied to one indexed region by the ordinal pass: regions
in a key group of two or more get ` · <ordinal>` appended, ordinals assigned
by position in the stable id-sorted group. -/
def pass3Rename (irs : List (Nat × Region)) (p : Nat × Region) : Region :=
  let r := p.2
  let key := normalize_name_key r.name
  if key = [] then r
  else
    let group := irs.filter (fun q => decide (normalize_name_key q.2.name = key))
    if group.length ≤ 1 then r
    else
      let sorted := group.insertionSort (fun a b => strLe a.2.id b.2.id = true)
      { add_alias r r.name with name := r.name ++ sep ++ natRepr (sorted.indexOf p + 1) }

/-- De-duplication pass 3: group by normalized key; groups of two or more
are renamed with ordinals in stable id order.  Regions are tracked by their
list position (Python tracks the dict objects by identity). -/
def dedupPass3 (rs : List Region) : List Region :=
  rs.enum.map (pass3Rename rs.enum)

/-- A name of the ordinal-suffix shape `<prefix> · <digits>`, as a
computable check: reversed, it starts with one or more digits followed by
the reversed separator. -/
def hasOrdSuffix (cs : List Char) : Bool :=
  let rcs := cs.reverse
  let ds := rcs.takeWhile Char.isDigit
  decide (ds ≠ []) && decide ((rcs.drop ds.length).take 3 = [' ', '·', ' '])

theorem digitChar_isDigit (n : Nat) : (digitChar n).isDigit = true := by
  unfold digitChar
  split <;> decide

theorem digitChar_inj {n m : Nat} (hn : n < 10) (hm : m < 10)
    (h : digitChar n = digitChar m) : n = m := by
  interval_cases n <;> interval_cases m <;> revert h <;> decide

theorem natReprAux_digits : ∀ (fuel n : Nat), ∀ c ∈ natReprAux fuel n,
    c.isDigit = true := by
  intro fuel
  induction fuel with
  | zero => intro n c hc; simp [natReprAux] at hc
  | succ fuel ih =>
    intro n c hc
    simp only [natReprAux] at hc
    by_cases h : n < 10
    · rw [if_pos h] at hc
      simp at hc
      subst hc
      exact digitChar_isDigit n
    · rw [if_neg h] at hc
      rcases List.mem_append.mp hc with h2 | h2
      · exact ih (n / 10) c h2
      · simp at h2
        subst h2
        exact digitChar_isDigit (n % 10)

theorem natReprAux_ne_nil {fuel n : Nat} (hf : 0 < fuel) :
    natReprAux fuel n ≠ [] := by
  cases fuel with
  | zero => omega
  | succ fuel =>
    simp only [natReprAux]
    by_cases h : n < 10
    · rw [if_pos h]
      simp
    · rw [if_neg h]
      simp

theorem natReprAux_fuel_eq : ∀ (n fuel1 fuel2 : Nat), n < fuel1 → n < fuel2 →
    natReprAux fuel1 n = natReprAux fuel2 n := by
  intro n
  induction n using Nat.strong_induction_on with
  | _ n ih =>
    intro fuel1 fuel2 h1 h2
    cases fuel1 with
    | zero => omega
    | succ f1 =>
      cases fuel2 with
      | zero => omega
      | succ f2 =>
        simp only [natReprAux]
        by_cases h : n < 10
        · rw [if_pos h, if_pos h]
        · rw [if_neg h, if_neg h]
          have hdiv : n / 10 < n := Nat.div_lt_self (by omega) (by omega)
          rw [ih (n / 10) hdiv f1 f2 (by omega) (by omega)]

theorem natRepr_digits (n : Nat) : ∀ c ∈ natRepr n, c.isDigit = true :=
  natReprAux_digits (n + 1) n

theorem natRepr_ne_nil (n : Nat) : natRepr n ≠ [] :=
  natReprAux_ne_nil (by omega)

theorem concat_inj {A B : List Char} {a b : Char} (h : A ++ [a] = B ++ [b]) :
    A = B ∧ a = b := by
  have hrev := congrArg List.reverse h
  simp only [List.reverse_append, List.reverse_cons, List.reverse_nil,
    List.nil_append, List.cons_append] at hrev
  simp only [List.cons.injEq] at hrev
  obtain ⟨hab, hAB⟩ := hrev
  exact ⟨by
    have := congrArg List.reverse hAB
    simpa using this, hab⟩

theorem natRepr_inj : ∀ {n m : Nat}, natRepr n = natRepr m → n = m := by
  intro n
  induction n using Nat.strong_induction_on with
  | _ n ih =>
    intro m h
    unfold natRepr at h
    by_cases hn : n < 10 <;> by_cases hm : m < 10
    · simp only [natReprAux, if_pos hn, if_pos hm, List.cons.injEq] at h
      exact digitChar_inj hn hm h.1
    · exfalso
      simp only [natReprAux, if_pos hn, if_neg hm] at h
      have hlen := congrArg List.length h
      simp only [List.length_cons, List.length_nil, List.length_append] at hlen
      have hnil : natReprAux m (m / 10) = [] := by
        cases hx : natReprAux m (m / 10) with
        | nil => rfl
        | cons c t =>
          rw [hx] at hlen
          simp at hlen
      exact natReprAux_ne_nil (by omega) hnil
    · exfalso
      simp only [natReprAux, if_neg hn, if_pos hm] at h
      have hlen := congrArg List.length h
      simp only [List.length_cons, List.length_nil, List.length_append] at hlen
      have hnil : natReprAux n (n / 10) = [] := by
        cases hx : natReprAux n (n / 10) with
        | nil => rfl
        | cons c t =>
          rw [hx] at hlen
          simp at hlen
      exact natReprAux_ne_nil (by omega) hnil
    · simp only [natReprAux, if_neg hn, if_neg hm] at h
      obtain ⟨hpre, hdig⟩ := concat_inj h
      have hmod : n % 10 = m % 10 :=
        digitChar_inj (Nat.mod_lt _ (by omega)) (Nat.mod_lt _ (by omega)) hdig
      have hdivlt : n / 10 < n := Nat.div_lt_self (by omega) (by omega)
      have hdiv : n / 10 = m / 10 := by
        apply ih (n / 10) hdivlt
        unfold natRepr
        rw [natReprAux_fuel_eq (n / 10) (n / 10 + 1) n (by omega) (by omega)]
        rw [natReprAux_fuel_eq (m / 10) (m / 10 + 1) m (by omega)
          (by
            have : m / 10 < m := Nat.div_lt_self (by omega) (by omega)
            omega)]
        exact hpre
      omega

theorem digits_space_inj : ∀ {a1 a2 t1 t2 : List Char},
    (∀ c ∈ a1, c.isDigit = true) → (∀ c ∈ a2, c.isDigit = true) →
    a1 ++ ' ' :: t1 = a2 ++ ' ' :: t2 → a1 = a2 ∧ t1 = t2 := by
  intro a1
  induction a1 with
  | nil =>
    intro a2 t1 t2 _ h2 h
    cases a2 with
    | nil => simpa using h
    | cons c2 r2 =>
      exfalso
      simp only [List.nil_append, List.cons_append, List.cons.injEq] at h
      have := h2 c2 (List.mem_cons_self _ _)
      rw [← h.1] at this
      exact absurd this (by decide)
  | cons c1 r1 ih =>
    intro a2 t1 t2 h1 h2 h
    cases a2 with
    | nil =>
      exfalso
      simp only [List.nil_append, List.cons_append, List.cons.injEq] at h
      have := h1 c1 (List.mem_cons_self _ _)
      rw [h.1] at this
      exact absurd this (by decide)
    | cons c2 r2 =>
      simp only [List.cons_append, List.cons.injEq] at h
      obtain ⟨hc, hrest⟩ := h
      obtain ⟨hr, ht⟩ := ih (fun c hc2 => h1 c (List.mem_cons_of_mem _ hc2))
        (fun c hc2 => h2 c (List.mem_cons_of_mem _ hc2)) hrest
      exact ⟨by rw [hc, hr], ht⟩

theorem name_ordinal_inj {x1 x2 d1 d2 : List Char}
    (hd1 : ∀ c ∈ d1, c.isDigit = true) (hd2 : ∀ c ∈ d2, c.isDigit = true)
    (h : x1 ++ sep ++ d1 = x2 ++ sep ++ d2) : x1 = x2 ∧ d1 = d2 := by
  have hrev := congrArg List.reverse h
  simp only [List.reverse_append, sep, List.reverse_cons, List.reverse_nil,
    List.nil_append, List.append_assoc, List.cons_append] at hrev
  obtain ⟨hd, ht⟩ := digits_space_inj
    (fun c hc => hd1 c (List.mem_reverse.mp hc))
    (fun c hc => hd2 c (List.mem_reverse.mp hc)) hrev
  simp only [List.cons.injEq, true_and] at ht
  constructor
  · have := congrArg List.reverse ht
    simpa using this
  · have := congrArg List.reverse hd
    simpa using this

theorem takeWhile_all_append {p : Char → Bool} {A : List Char} {b : Char}
    {B : List Char} (hA : ∀ c ∈ A, p c = true) (hb : p b = false) :
    (A ++ b :: B).takeWhile p = A := by
  induction A with
  | nil => simp [List.takeWhile, hb]
  | cons c r ih =>
    simp only [List.cons_append, List.takeWhile]
    rw [hA c (List.mem_cons_self _ _)]
    simp only [List.cons.injEq, true_and]
    exact ih (fun c2 hc2 => hA c2 (List.mem_cons_of_mem _ hc2))

theorem hasOrdSuffix_of_shape {x d : List Char} (hne : d ≠ [])
    (hd : ∀ c ∈ d, c.isDigit = true) : hasOrdSuffix (x ++ sep ++ d) = true := by
  have hrcs : (x ++ sep ++ d).reverse = d.reverse ++ ' ' :: '·' :: ' ' :: x.reverse := by
    simp [sep, List.reverse_append]
  simp only [hasOrdSuffix, hrcs]
  rw [takeWhile_all_append (fun c hc => hd c (List.mem_reverse.mp hc)) (by decide)]
  rw [List.drop_left]
  simp only [List.take, Bool.and_eq_true, decide_eq_true_eq]
  constructor
  · simp [hne]
  · trivial

theorem pass3Rename_name_small {irs : List (Nat × Region)} {p : Nat × Region}
    (hkey : ¬ normalize_name_key p.2.name = [])
    (hsmall : (irs.filter (fun q => decide (normalize_name_key q.2.name =
      normalize_name_key p.2.name))).length ≤ 1) :
    (pass3Rename irs p).name = p.2.name := by
  simp only [pass3Rename, if_neg hkey, if_pos hsmall]

theorem pass3Rename_name_big {irs : List (Nat × Region)} {p : Nat × Region}
    (hkey : ¬ normalize_name_key p.2.name = [])
    (hbig : ¬ (irs.filter (fun q => decide (normalize_name_key q.2.name =
      normalize_name_key p.2.name))).length ≤ 1) :
    (pass3Rename irs p).name = p.2.name ++ sep ++
      natRepr (((irs.filter (fun q => decide (normalize_name_key q.2.name =
        normalize_name_key p.2.name))).insertionSort
          (fun a b => strLe a.2.id b.2.id = true)).indexOf p + 1) := by
  simp only [pass3Rename, if_neg hkey, if_neg hbig]

theorem mem_of_mem_enum {rs : List Region} {p : Nat × Region} (h : p ∈ rs.enum) :
    p.2 ∈ rs :=
  List.get?_mem (List.mem_enum_iff_get?.mp h)

theorem indexOf_inj_of_mem {α : Type} [BEq α] [LawfulBEq α] :
    ∀ {l : List α} {a b : α}, a ∈ l → b ∈ l →
      List.indexOf a l = List.indexOf b l → a = b := by
  intro l
  induction l with
  | nil => intro a b ha _ _; simp at ha
  | cons c t ih =>
    intro a b ha hb h
    rw [List.indexOf_cons, List.indexOf_cons] at h
    cases hca : c == a <;> cases hcb : c == b <;> rw [hca, hcb] at h <;> simp at h
    · have hat : a ∈ t := by
        rcases List.mem_cons.mp ha with h0 | h0
        · rw [h0, beq_self_eq_true] at hca
          exact Bool.noConfusion hca
        · exact h0
      have hbt : b ∈ t := by
        rcases List.mem_cons.mp hb with h0 | h0
        · rw [h0, beq_self_eq_true] at hcb
          exact Bool.noConfusion hcb
        · exact h0
      exact ih hat hbt h
    · exact (eq_of_beq hca).symm.trans (eq_of_beq hcb)

theorem dedupPass3_distinct {rs : List Region}
    (h1 : ∀ r ∈ rs, normalize_name_key r.name ≠ [])
    (h2 : ∀ r ∈ rs, hasOrdSuffix r.name = false) :
    List.Pairwise (fun a b : Region => a.name ≠ b.name) (dedupPass3 rs) := by
  unfold dedupPass3
  rw [List.pairwise_map]
  have hfst : List.Pairwise (fun p q : Nat × Region => p.1 ≠ q.1) rs.enum := by
    have h := List.nodup_range rs.length
    rw [← List.enum_map_fst] at h
    exact List.pairwise_map.mp h
  refine hfst.imp_of_mem ?_
  intro p q hp hq hne heq
  have hpq : p ≠ q := fun hx => hne (congrArg Prod.fst hx)
  have hpmem : p.2 ∈ rs := mem_of_mem_enum hp
  have hqmem : q.2 ∈ rs := mem_of_mem_enum hq
  have hkp : ¬ normalize_name_key p.2.name = [] := h1 _ hpmem
  have hkq : ¬ normalize_name_key q.2.name = [] := h1 _ hqmem
  by_cases hsp : (rs.enum.filter (fun x => decide (normalize_name_key x.2.name =
        normalize_name_key p.2.name))).length ≤ 1 <;>
    by_cases hsq : (rs.enum.filter (fun x => decide (normalize_name_key x.2.name =
        normalize_name_key q.2.name))).length ≤ 1
  · -- both untouched: equal raw names put both in one small group
    rw [pass3Rename_name_small hkp hsp, pass3Rename_name_small hkq hsq] at heq
    have hkeys : normalize_name_key q.2.name = normalize_name_key p.2.name := by
      rw [heq]
    have hpin : p ∈ rs.enum.filter (fun x => decide (normalize_name_key x.2.name =
        normalize_name_key p.2.name)) :=
      List.mem_filter.mpr ⟨hp, by simp⟩
    have hqin : q ∈ rs.enum.filter (fun x => decide (normalize_name_key x.2.name =
        normalize_name_key p.2.name)) :=
      List.mem_filter.mpr ⟨hq, by simp [hkeys]⟩
    have := two_le_length_of_mem_ne hpin hqin hpq
    omega
  · -- p untouched, q renamed: p's plain name would carry an ordinal suffix
    rw [pass3Rename_name_small hkp hsp, pass3Rename_name_big hkq hsq] at heq
    have hyp := h2 _ hpmem
    rw [heq] at hyp
    rw [hasOrdSuffix_of_shape (natRepr_ne_nil _) (natRepr_digits _)] at hyp
    exact Bool.noConfusion hyp
  · -- q untouched, p renamed
    rw [pass3Rename_name_big hkp hsp, pass3Rename_name_small hkq hsq] at heq
    have hyq := h2 _ hqmem
    rw [← heq] at hyq
    rw [hasOrdSuffix_of_shape (natRepr_ne_nil _) (natRepr_digits _)] at hyq
    exact Bool.noConfusion hyq
  · -- both renamed: same name and ordinal forces the same group position
    rw [pass3Rename_name_big hkp hsp, pass3Rename_name_big hkq hsq] at heq
    obtain ⟨hname, hord⟩ := name_ordinal_inj (natRepr_digits _) (natRepr_digits _) heq
    have hkeys : normalize_name_key q.2.name = normalize_name_key p.2.name := by
      rw [hname]
    have hrank := natRepr_inj hord
    have hgroup : rs.enum.filter (fun x => decide (normalize_name_key x.2.name =
        normalize_name_key q.2.name)) =
        rs.enum.filter (fun x => decide (normalize_name_key x.2.name =
          normalize_name_key p.2.name)) := by
      rw [hkeys]
    rw [hgroup] at hrank
    have hpin : p ∈ (rs.enum.filter (fun x => decide (normalize_name_key x.2.name =
        normalize_name_key p.2.name))).insertionSort
        (fun a b => strLe a.2.id b.2.id = true) := by
      rw [(List.perm_insertionSort _ _).mem_iff]
      exact List.mem_filter.mpr ⟨hp, by simp⟩
    have hqin : q ∈ (rs.enum.filter (fun x => decide (normalize_name_key x.2.name =
        normalize_name_key p.2.name))).insertionSort
        (fun a b => strLe a.2.id b.2.id = true) := by
      rw [(List.perm_insertionSort _ _).mem_iff]
      exact List.mem_filter.mpr ⟨hq, by simp [hkeys]⟩
    exact hpq (indexOf_inj_of_mem hpin hqin (by omega))

/-- C9 fails as stated: two regions named `X` with no station and no anchor
coordinates pass untouched through the first two passes, and the ordinal
pass renames them `X · 1` and `X · 2` — colliding with a third region
already named `X · 1` (whose singleton key group is left untouched). -/
theorem claim_C9_counterexample :
    (dedupPass3 (dedupPass2 (fun _ _ => (0 : Fin 8)) (dedupPass1
        [⟨['a'], ['X'], [], [], none, none, none, none⟩,
         ⟨['b'], ['X'], [], [], none, none, none, none⟩,
         ⟨['c'], ['X', ' ', '·', ' ', '1'], [], [], none, none, none,
           none⟩]))).map Region.name =
      [['X', ' ', '·', ' ', '1'], ['X', ' ', '·', ' ', '2'],
        ['X', ' ', '·', ' ', '1']] ∧
      ¬ List.Pairwise (fun a b : Region => a.name ≠ b.name)
        (dedupPass3 (dedupPass2 (fun _ _ => (0 : Fin 8)) (dedupPass1
          [⟨['a'], ['X'], [], [], none, none, none, none⟩,
           ⟨['b'], ['X'], [], [], none, none, none, none⟩,
           ⟨['c'], ['X', ' ', '·', ' ', '1'], [], [], none, none, none,
             none⟩]))) := by
  constructor
  · decide
  · decide

/-- C9 (amended): after the three de-duplication passes (station suffix,
compass suffix, ordinal suffix) the derived-region names are pairwise
distinct, provided every name entering the ordinal pass has a nonempty
normalized key and does not already end in an ordinal-like suffix
` · <digits>`.  Without the proviso the ordinal pass can recreate an
existing name (see the counterexample). -/
theorem claim_C9_dedup_names_distinct (bin : ℚ → ℚ → Fin 8) (rs : List Region)
    (h1 : ∀ r ∈ dedupPass2 bin (dedupPass1 rs), normalize_name_key r.name ≠ [])
    (h2 : ∀ r ∈ dedupPass2 bin (dedupPass1 rs), hasOrdSuffix r.name = false) :
    List.Pairwise (fun a b : Region => a.name ≠ b.name)
      (dedupPass3 (dedupPass2 bin (dedupPass1 rs))) :=
  dedupPass3_distinct h1 h2

theorem claim_C9_dedup_names_distinct_witness :
    (∀ r ∈ dedupPass2 (fun _ _ => (0 : Fin 8)) (dedupPass1
        [⟨['a'], ['X'], [], ['S'], none, none, none, none⟩,
         ⟨['b'], ['X'], [], ['T'], none, none, none, none⟩]),
      normalize_name_key r.name ≠ []) ∧
      (∀ r ∈ dedupPass2 (fun _ _ => (0 : Fin 8)) (dedupPass1
        [⟨['a'], ['X'], [], ['S'], none, none, none, none⟩,
         ⟨['b'], ['X'], [], ['T'], none, none, none, none⟩]),
        hasOrdSuffix r.name = false) ∧
      List.Pairwise (fun a b : Region => a.name ≠ b.name)
        (dedupPass3 (dedupPass2 (fun _ _ => (0 : Fin 8)) (dedupPass1
          [⟨['a'], ['X'], [], ['S'], none, none, none, none⟩,
           ⟨['b'], ['X'], [], ['T'], none, none, none, none⟩]))) :=
  ⟨by decide, by decide,
    claim_C9_dedup_names_distinct (fun _ _ => (0 : Fin 8))
      [⟨['a'], ['X'], [], ['S'], none, none, none, none⟩,
       ⟨['b'], ['X'], [], ['T'], none, none, none, none⟩]
      (by decide) (by decide)⟩

end TeleportCorridors
